import Mathlib

/-!
Verification development for the MarkdownV3 transcoder
(`telethon/extensions/markdownv3.py`): a bidirectional converter between a
lightweight markup dialect and (plain text, formatting entities).

Strings are embedded as `List Char`; UTF-16 code-unit sequences (the offset
space of entities, produced by the surrogate codec) as `List Nat`.  Python
operations used by the source (`str.split`, `str.strip`, `str.replace`,
slicing, `re` scanning with the two fixed patterns of the module) are
embedded as executable functions below.
-/

namespace MarkdownV3

abbrev Str := List Char

/-- Shorthand turning a string literal into its character list. -/
def str (x : String) : Str := x.toList

/-- Python whitespace characters recognised by `str.strip()` (ASCII range). -/
def isPySpace (c : Char) : Bool :=
  c = ' ' ∨ c = '\t' ∨ c = '\n' ∨ c = '\r' ∨ c = '\x0b' ∨ c = '\x0c'

/-- Python `str.strip()`: remove all leading and trailing whitespace. -/
def pyStrip (t : Str) : Str :=
  ((t.dropWhile isPySpace).reverse.dropWhile isPySpace).reverse

/-- Python `str.split(sep)` for a one-character separator. -/
def pySplit (t : Str) (sep : Char) : List Str :=
  match t with
  | [] => [[]]
  | c :: cs =>
    if c = sep then [] :: pySplit cs sep
    else
      match pySplit cs sep with
      | h :: tl => (c :: h) :: tl
      | [] => [[c]]

/-- Index of the first occurrence of `needle` in `t` (Python `str.find`
restricted to found-or-not), as an option. -/
def findSub (t needle : Str) : Option Nat :=
  match t with
  | [] => if needle = [] then some 0 else none
  | _ :: cs =>
    if needle.isPrefixOf t then some 0
    else (findSub cs needle).map (· + 1)

/-- First occurrence of `needle` at index `i` or later (Python `str.find(needle, i)`). -/
def pyFindFrom (t needle : Str) (i : Nat) : Option Nat :=
  (findSub (t.drop i) needle).map (· + i)

/-- `utils.replace_once(text, old, new, start)`, modelled from the spec
(`splice_first_at_or_after`): replace the first occurrence of `old` found at
or after index `start`; no occurrence leaves the text unchanged. -/
def replaceOnce (t old new : Str) (start : Nat) : Str :=
  match pyFindFrom t old start with
  | some j => t.take j ++ new ++ t.drop (j + old.length)
  | none => t

/-- Python `str.replace(old, new)` (all non-overlapping occurrences, left to
right); `fuel` bounds the scan and is instantiated with the text length. -/
def replaceAllAux (fuel : Nat) (t old new : Str) : Str :=
  match fuel, t with
  | 0, t => t
  | _, [] => []
  | fuel + 1, c :: cs =>
    if old ≠ [] ∧ old.isPrefixOf (c :: cs) then
      new ++ replaceAllAux fuel ((c :: cs).drop old.length) old new
    else
      c :: replaceAllAux fuel cs old new

def replaceAll (t old new : Str) : Str := replaceAllAux t.length t old new

/-- Decimal digits of a natural number, most significant first. -/
def natStrAux (fuel n : Nat) : Str :=
  match fuel with
  | 0 => []
  | fuel + 1 =>
    if n < 10 then [Char.ofNat (48 + n)]
    else natStrAux fuel (n / 10) ++ [Char.ofNat (48 + n % 10)]

def natStr (n : Nat) : Str := natStrAux (n + 1) n

/-- Python `str(i)` for an integer. -/
def intStr (i : Int) : Str :=
  if i < 0 then '-' :: natStr i.natAbs else natStr i.toNat

/- ### Blockquote preprocessor (`MarkdownV3.blockquote_parser`) -/

/-- `"<{}>".format tag` -/
def openingTag (tag : Str) : Str := '<' :: (tag ++ ['>'])

/-- `"</{}>".format tag` -/
def closingTag (tag : Str) : Str := '<' :: '/' :: (tag ++ ['>'])

/-- `result[-1] += s` on the accumulated line list (call sites guarantee the
list is nonempty). -/
def appendLast (xs : List Str) (suffix : Str) : List Str :=
  match xs with
  | [] => []
  | [x] => [x ++ suffix]
  | x :: xs => x :: appendLast xs suffix

/-- One iteration of the line loop of `blockquote_parser`; state is
(emitted lines, `in_blockquote`). -/
def blockquoteStep (acc : List Str × Bool) (line : Str) : List Str × Bool :=
  let (result, inBq) := acc
  if (str ">").isPrefixOf line then
    if !inBq then
      let exp := (str "**>").isPrefixOf line
      let tag := if exp then str "blockquote expandable" else str "blockquote"
      let pfxLen := if exp then (str "**>").length else (str ">").length
      (result ++ [openingTag tag ++ pyStrip (line.drop pfxLen)], true)
    else
      let pfxLen := if (str "**>").isPrefixOf line then (str "**>").length
                    else (str ">").length
      (result ++ [pyStrip (line.drop pfxLen)], true)
  else
    if inBq then
      (appendLast result (closingTag (str "blockquote")) ++ [line], false)
    else
      (result ++ [line], false)

/-- `MarkdownV3.blockquote_parser` (the two leading `re.sub` calls of the
source replace `"^>"` by `">"` and `"\n>"` by `"\n>"`, i.e. are identities,
and are therefore not represented). -/
def blockquoteParser (text : Str) : Str :=
  let lines := pySplit text '\n'
  let (result, inBq) := lines.foldl blockquoteStep ([], false)
  let result := if inBq then appendLast result (closingTag (str "blockquote")) else result
  List.intercalate ['\n'] result

/- ### Delimiter tokenizer (`MARKDOWN_RE` scan of `MarkdownV3.parse`, step 3) -/

/-- The seven fixed delimiters, in the alternation order of `MARKDOWN_RE`
(PRE, CODE, STRIKE, UNDERLINE, ITALIC, BOLD, SPOILER). -/
inductive Delim where
  | dPre | dCode | dStrike | dUnderline | dItalic | dBold | dSpoiler
deriving DecidableEq

def delimStr : Delim → Str
  | .dPre => str "```"
  | .dCode => str "`"
  | .dStrike => str "~~"
  | .dUnderline => str "--"
  | .dItalic => str "__"
  | .dBold => str "**"
  | .dSpoiler => str "||"

/-- Python `tag_map` of the source. -/
def tagName : Delim → Str
  | .dBold => str "b"
  | .dItalic => str "i"
  | .dUnderline => str "u"
  | .dStrike => str "s"
  | .dCode => str "code"
  | .dPre => str "pre"
  | .dSpoiler => str "spoiler"

/-- First alternative of `MARKDOWN_RE` that matches at the head of `t`
(regex alternation tries the listed delimiters in order). -/
def tryDelim (t : Str) : Option Delim :=
  if (delimStr .dPre).isPrefixOf t then some .dPre
  else if (delimStr .dCode).isPrefixOf t then some .dCode
  else if (delimStr .dStrike).isPrefixOf t then some .dStrike
  else if (delimStr .dUnderline).isPrefixOf t then some .dUnderline
  else if (delimStr .dItalic).isPrefixOf t then some .dItalic
  else if (delimStr .dBold).isPrefixOf t then some .dBold
  else if (delimStr .dSpoiler).isPrefixOf t then some .dSpoiler
  else none

/-- Characters of the lazy `(.+?)\)` url group after the first one: collect up
to the first `)`; `.` does not cross a newline. -/
def linkUrlScan : Str → Option Str
  | [] => none
  | c :: cs =>
    if c = ')' then some []
    else if c = '\n' then none
    else (linkUrlScan cs).map (c :: ·)

/-- The url group `(.+?)\)`: at least one non-newline character, then the
first following `)`. -/
def linkUrl : Str → Option Str
  | [] => none
  | c :: cs => if c = '\n' then none else (linkUrlScan cs).map (c :: ·)

/-- Grow the lazy label group `(.+?)` one character at a time; at each stop
try `\]\(` followed by the url group, backtracking into a longer label when
that fails, exactly as the regex engine does. `acc` holds the label so far,
reversed, and is nonempty at every call. -/
def linkLoop (acc : Str) : Str → Option (Str × Str)
  | [] => none
  | c :: cs =>
    if c = ']' then
      match cs with
      | '(' :: cs2 =>
        match linkUrl cs2 with
        | some url => some (acc.reverse, url)
        | none => linkLoop (']' :: acc) cs
      | _ => if c = '\n' then none else linkLoop (c :: acc) cs
    else if c = '\n' then none else linkLoop (c :: acc) cs

inductive Tok where
  | tokDelim (d : Delim)
  | tokLink (label url : Str)
deriving DecidableEq

/-- `match.group(0)`: the text the match consumed. -/
def tokFull : Tok → Str
  | .tokDelim d => delimStr d
  | .tokLink label url => '[' :: (label ++ (']' :: '(' :: (url ++ [')'])))

def tokLen (t : Tok) : Nat := (tokFull t).length

/-- The link branch `\[(.+?)\]\((.+?)\)` of `MARKDOWN_RE` anchored at the
head of `t`. -/
def tryLink (t : Str) : Option Tok :=
  match t with
  | [] => none
  | c0 :: rest =>
    if c0 = '[' then
      match rest with
      | [] => none
      | c :: cs =>
        if c = '\n' then none
        else (linkLoop [c] cs).map fun p => .tokLink p.1 p.2
    else none

/-- `MARKDOWN_RE` anchored at the head of `t`: the delimiter group is tried
before the link branch. -/
def matchAt (t : Str) : Option Tok :=
  match tryDelim t with
  | some d => some (.tokDelim d)
  | none => tryLink t

/-- `re.finditer(MARKDOWN_RE, text)`: leftmost non-overlapping matches with
their start positions. `fuel` bounds the scan and is instantiated with the
text length (every step consumes at least one character). -/
def finditerAux (fuel pos : Nat) (t : Str) : List (Nat × Tok) :=
  match fuel, t with
  | 0, _ => []
  | _, [] => []
  | fuel + 1, c :: cs =>
    match matchAt (c :: cs) with
    | some tok => (pos, tok) :: finditerAux fuel (pos + tokLen tok) ((c :: cs).drop (tokLen tok))
    | none => finditerAux fuel (pos + 1) cs

def finditer (t : Str) : List (Nat × Tok) := finditerAux t.length 0 t

def urlMarkup (url label : Str) : Str :=
  str "<a href=\"" ++ url ++ str "\">" ++ label ++ str "</a>"

def preLangTag (lang : Str) : Str :=
  str "<pre language=\"" ++ lang ++ str "\">"

/-- `delim in [CODE_DELIM, PRE_DELIM]` (false for the link branch, whose
`delim` group is `None`). -/
def isCodeOrPre : Tok → Bool
  | .tokDelim d => d = .dCode ∨ d = .dPre
  | .tokLink _ _ => false

/-- `delims.remove(delim)`; the scan adds a delimiter only when absent, so
the list never holds duplicates and filtering equals set removal. -/
def removeDelim (l : List Delim) (d : Delim) : List Delim := l.filter (· ≠ d)

/-- Scan state of `MarkdownV3.parse` step 3: the `delims` set, the
`is_fixed_width` flag and the text being rewritten. -/
structure TokState where
  delims : List Delim
  fixedWidth : Bool
  text : Str
deriving DecidableEq

/-- One iteration of the match loop of `MarkdownV3.parse` (lines 108-155):
toggle `is_fixed_width` on code/pre, skip every other match while it is set,
emit link markup, or toggle the delimiter's open state and splice the
corresponding tag at the first occurrence at or after the match start. -/
def tokenStep (s : TokState) (m : Nat × Tok) : TokState :=
  let start := m.1
  let tok := m.2
  let fw := if isCodeOrPre tok then !s.fixedWidth else s.fixedWidth
  if fw ∧ ¬ isCodeOrPre tok then
    { s with fixedWidth := fw }
  else
    match tok with
    | .tokLink label url =>
      { s with fixedWidth := fw,
               text := replaceOnce s.text (tokFull (.tokLink label url)) (urlMarkup url label) start }
    | .tokDelim d =>
      if ¬ (d ∈ s.delims) then
        if d = .dPre then
          let lineContent := (s.text.drop start).takeWhile (· ≠ '\n')
          let lang := lineContent.drop (delimStr .dPre).length
          { delims := d :: s.delims, fixedWidth := fw,
            text := replaceOnce s.text lineContent (preLangTag lang) start }
        else
          { delims := d :: s.delims, fixedWidth := fw,
            text := replaceOnce s.text (delimStr d) (openingTag (tagName d)) start }
      else
        { delims := removeDelim s.delims d, fixedWidth := fw,
          text := replaceOnce s.text (delimStr d) (closingTag (tagName d)) start }

def initTokState (t : Str) : TokState := { delims := [], fixedWidth := false, text := t }

/-- Step 3 of `MarkdownV3.parse`: fold the match loop over the matches that
`re.finditer` computed on the text as it was before the loop started. -/
def tokenizeText (t : Str) : TokState := (finditer t).foldl tokenStep (initTokState t)

/- ### Code-fence shield (`CODE_TAG_RE`, steps 2 and 3's restore) -/

/-- Characters of the lazy `.*?` inside `<code>.*?</code>`: collect up to the
first `</code>`, never crossing a newline. -/
def codeSpanEnd : Str → Option Str
  | [] => none
  | c :: cs =>
    if (str "</code>").isPrefixOf (c :: cs) then some []
    else if c = '\n' then none
    else (codeSpanEnd cs).map (c :: ·)

/-- `CODE_TAG_RE.findall(text)`: every non-overlapping `<code>...</code>`
span, leftmost first. -/
def codeFindAllAux (fuel : Nat) (t : Str) : List Str :=
  match fuel, t with
  | 0, _ => []
  | _, [] => []
  | fuel + 1, c :: cs =>
    if (str "<code>").isPrefixOf (c :: cs) then
      match codeSpanEnd ((c :: cs).drop (str "<code>").length) with
      | some inner =>
        let sec := str "<code>" ++ inner ++ str "</code>"
        sec :: codeFindAllAux fuel ((c :: cs).drop sec.length)
      | none => codeFindAllAux fuel cs
    else codeFindAllAux fuel cs

def codeFindAll (t : Str) : List Str := codeFindAllAux t.length t

/-- `f"\x7bCODE_SECTION_{i}\x7d"` -/
def placeholderStr (i : Nat) : Str :=
  str "\x7bCODE_SECTION_" ++ natStr i ++ str "\x7d"

/-- Step 2 of `MarkdownV3.parse`: replace each found code section (first
occurrence, scanning from the start) with its numbered placeholder and record
the pairs in insertion order. -/
def shieldAux (i : Nat) (t : Str) : List Str → Str × List (Str × Str)
  | [] => (t, [])
  | sec :: rest =>
    let t' := replaceOnce t sec (placeholderStr i) 0
    let (t'', m) := shieldAux (i + 1) t' rest
    (t'', (placeholderStr i, sec) :: m)

/-- Restore loop: `text.replace(placeholder, code_section)` over the recorded
pairs in insertion order. -/
def restoreAll (t : Str) (phs : List (Str × Str)) : Str :=
  phs.foldl (fun acc p => replaceAll acc p.1 p.2) t

/- ### Entities and the tag-to-entity bridge -/

/-- The entity records of `telethon.tl.types` used by this module, as tagged
data (offset/length in UTF-16 code units). -/
inductive Entity where
  | bold (offset length : Nat)
  | italic (offset length : Nat)
  | underline (offset length : Nat)
  | strike (offset length : Nat)
  | spoiler (offset length : Nat)
  | code (offset length : Nat)
  | pre (offset length : Nat) (language : Str)
  | textUrl (offset length : Nat) (url : Str)
  | mentionName (offset length : Nat) (userId : Int)
  | customEmoji (offset length : Nat) (documentId : Int)
  | blockquote (offset length : Nat) (collapsed : Bool)
deriving DecidableEq

/-- An open tag on the bridge parser's stack. -/
inductive OpenTag where
  | oB | oI | oU | oS | oCode | oSpoiler
  | oPre (language : Str)
  | oA (url : Str)
  | oBq (expandable : Bool)
deriving DecidableEq

inductive CloseKind where
  | cB | cI | cU | cS | cCode | cSpoiler | cPre | cA | cBq
deriving DecidableEq

def closeMatches (o : OpenTag) (k : CloseKind) : Bool :=
  match o, k with
  | .oB, .cB | .oI, .cI | .oU, .cU | .oS, .cS => true
  | .oCode, .cCode | .oSpoiler, .cSpoiler => true
  | .oPre _, .cPre | .oA _, .cA | .oBq _, .cBq => true
  | _, _ => false

def fixedOpens : List (Str × OpenTag) :=
  [(str "<b>", .oB), (str "<i>", .oI), (str "<u>", .oU), (str "<s>", .oS),
   (str "<code>", .oCode), (str "<spoiler>", .oSpoiler),
   (str "<blockquote expandable>", .oBq true), (str "<blockquote>", .oBq false)]

def findFixedOpen (t : Str) : List (Str × OpenTag) → Option (OpenTag × Nat)
  | [] => none
  | (pat, o) :: rest =>
    if pat.isPrefixOf t then some (o, pat.length) else findFixedOpen t rest

def fixedCloses : List (Str × CloseKind) :=
  [(str "</b>", .cB), (str "</i>", .cI), (str "</u>", .cU), (str "</s>", .cS),
   (str "</code>", .cCode), (str "</spoiler>", .cSpoiler),
   (str "</pre>", .cPre), (str "</a>", .cA), (str "</blockquote>", .cBq)]

def findFixedClose (t : Str) : List (Str × CloseKind) → Option (CloseKind × Nat)
  | [] => none
  | (pat, k) :: rest =>
    if pat.isPrefixOf t then some (k, pat.length) else findFixedClose t rest

/-- Attribute content up to the closing double quote. -/
def scanQuoted : Str → Option (Str × Str)
  | [] => none
  | c :: cs =>
    if c = '"' then some ([], cs)
    else (scanQuoted cs).map fun p => (c :: p.1, p.2)

/-- Recognise one opening tag at the head of `t`, returning it with the
number of characters it occupies. -/
def parseOpenTag (t : Str) : Option (OpenTag × Nat) :=
  match findFixedOpen t fixedOpens with
  | some r => some r
  | none =>
    if (str "<pre language=\"").isPrefixOf t then
      match scanQuoted (t.drop (str "<pre language=\"").length) with
      | some (lang, '>' :: _) =>
        some (.oPre lang, (str "<pre language=\"").length + lang.length + 2)
      | _ => none
    else if (str "<a href=\"").isPrefixOf t then
      match scanQuoted (t.drop (str "<a href=\"").length) with
      | some (url, '>' :: _) =>
        some (.oA url, (str "<a href=\"").length + url.length + 2)
      | _ => none
    else none

def mkEntity (o : OpenTag) (offset length : Nat) : Entity :=
  match o with
  | .oB => .bold offset length
  | .oI => .italic offset length
  | .oU => .underline offset length
  | .oS => .strike offset length
  | .oCode => .code offset length
  | .oSpoiler => .spoiler offset length
  | .oPre lang => .pre offset length lang
  | .oA url => .textUrl offset length url
  | .oBq exp => .blockquote offset length exp

/-- Pop the topmost open tag matching a close kind. -/
def popMatching : List (OpenTag × Nat) → CloseKind → Option (OpenTag × Nat × List (OpenTag × Nat))
  | [], _ => none
  | (o, off) :: rest, k =>
    if closeMatches o k then some (o, off, rest)
    else (popMatching rest k).map fun r => (r.1, r.2.1, (o, off) :: r.2.2)

/-- UTF-16 code units taken by a character. -/
def charWidth (c : Char) : Nat := if c.toNat < 0x10000 then 1 else 2

/-- Modelled from the spec: the external tag parser (`Tag-to-Entity Bridge`,
`self.html.parse` of `telethon.extensions.html`, not under src/). Per §4.4/§6
it strips every recognised tag, leaves all other characters untouched, and
returns entities whose offsets and lengths are UTF-16 code-unit positions
into the plain text; an entity is emitted when its tag is closed. An
unrecognised `<` is literal text; tags left open at the end produce no
entity. -/
def parseTagsAux (fuel : Nat) (t : Str) (off : Nat) (stack : List (OpenTag × Nat))
    (plain : Str) (ents : List Entity) : Str × List Entity :=
  match fuel, t with
  | 0, _ => (plain, ents)
  | _, [] => (plain, ents)
  | fuel + 1, c :: cs =>
    if c = '<' then
      match findFixedClose (c :: cs) fixedCloses with
      | some (k, len) =>
        match popMatching stack k with
        | some (o, start, stack') =>
          parseTagsAux fuel ((c :: cs).drop len) off stack' plain
            (ents ++ [mkEntity o start (off - start)])
        | none => parseTagsAux fuel ((c :: cs).drop len) off stack plain ents
      | none =>
        match parseOpenTag (c :: cs) with
        | some (o, len) =>
          parseTagsAux fuel ((c :: cs).drop len) off ((o, off) :: stack) plain ents
        | none => parseTagsAux fuel cs (off + 1) stack (plain ++ [c]) ents
    else
      parseTagsAux fuel cs (off + charWidth c) stack (plain ++ [c]) ents

def parseTags (t : Str) : Str × List Entity := parseTagsAux t.length t 0 [] [] []

/- ### Entity normalizer (step 5 of `MarkdownV3.parse`) -/

def digitsVal (ds : Str) : Option Nat :=
  if ds ≠ [] ∧ ds.all Char.isDigit then
    some (ds.foldl (fun a c => a * 10 + (c.toNat - 48)) 0)
  else none

/-- Python `int(s)` on a string: surrounding whitespace is ignored, an
optional sign precedes the digits. (Underscore digit separators and
non-ASCII decimal digits, which `int` also accepts, are not modelled; no
input in this development contains them.) -/
def pyInt (s0 : Str) : Option Int :=
  match pyStrip s0 with
  | '-' :: ds => (digitsVal ds).map fun n => -(n : Int)
  | '+' :: ds => (digitsVal ds).map fun n => (n : Int)
  | ds => (digitsVal ds).map fun n => (n : Int)

/-- The body of the normalization loop for one entity: a TextUrl whose url is
the literal `spoiler` becomes a Spoiler; one whose url starts with `emoji/`
becomes a CustomEmoji with id `int(url.split("/")[1])` unless that parse
fails (`url.split("/")` has at least two parts whenever the url starts with
`emoji/`, so the IndexError branch of the source is unreachable). -/
def normOne (e : Entity) : Entity :=
  match e with
  | .textUrl off len url =>
    if url = str "spoiler" then .spoiler off len
    else if (str "emoji/").isPrefixOf url then
      match pyInt ((pySplit url '/').getD 1 []) with
      | some n => .customEmoji off len n
      | none => .textUrl off len url
    else .textUrl off len url
  | e => e

/-- Step 5 of `MarkdownV3.parse`: `entities[i] = ...` over the list. -/
def normalizeEntities (es : List Entity) : List Entity := es.map normOne

/- ### `MarkdownV3.parse` -/

def parse (text : Str) : Str × List Entity :=
  if text.isEmpty then (text, [])
  else
    let t1 := blockquoteParser text
    let (t2, phs) := shieldAux 0 t1 (codeFindAll t1)
    let st := tokenizeText t2
    let t3 := restoreAll st.text phs
    let (clean, ents) := parseTags t3
    (clean, normalizeEntities ents)

/- ### `MarkdownV3.unparse` -/

/-- `utils.add_surrogates`, modelled from the spec (§6): expand to UTF-16
code units so that indexing matches code-unit counting. -/
def charUtf16 (c : Char) : List Nat :=
  if c.toNat < 0x10000 then [c.toNat]
  else [0xD800 + (c.toNat - 0x10000) / 0x400, 0xDC00 + (c.toNat - 0x10000) % 0x400]

def strUtf16 (s : Str) : List Nat := s.foldr (fun c acc => charUtf16 c ++ acc) []

def isHighSur (n : Nat) : Bool := 0xD800 ≤ n ∧ n < 0xDC00

def isLowSur (n : Nat) : Bool := 0xDC00 ≤ n ∧ n < 0xE000

/-- `utils.remove_surrogates`, modelled from the spec (§6): exact inverse of
the expansion on valid input; a surrogate pair contracts to its scalar value,
any other unit maps back through `Char.ofNat`. -/
def removeSurrogates : List Nat → Str
  | [] => []
  | [u] => [Char.ofNat u]
  | h :: l :: rest =>
    if isHighSur h ∧ isLowSur l then
      Char.ofNat (0x10000 + (h - 0xD800) * 0x400 + (l - 0xDC00)) :: removeSurrogates rest
    else Char.ofNat h :: removeSurrogates (l :: rest)

/-- `text = text[:offset] + tag + text[offset:]` — Python slicing saturates,
so an offset past the end appends the tag. -/
def pyInsert (t : List Nat) (off : Nat) (tag : List Nat) : List Nat :=
  t.take off ++ tag ++ t.drop off

/-- The `(start_tag, start), (end_tag, end)` pairs one entity contributes to
`entities_offsets`, in append order; a Blockquote contributes a single start
insertion. -/
def tagsFor (e : Entity) : List (List Nat × Nat) :=
  match e with
  | .customEmoji off len did =>
    [(strUtf16 (str "["), off),
     (strUtf16 (str "](emoji/" ++ intStr did ++ str ")"), off + len)]
  | .spoiler off len => [(strUtf16 (str "||"), off), (strUtf16 (str "||"), off + len)]
  | .bold off len => [(strUtf16 (str "**"), off), (strUtf16 (str "**"), off + len)]
  | .italic off len => [(strUtf16 (str "__"), off), (strUtf16 (str "__"), off + len)]
  | .underline off len => [(strUtf16 (str "--"), off), (strUtf16 (str "--"), off + len)]
  | .strike off len => [(strUtf16 (str "~~"), off), (strUtf16 (str "~~"), off + len)]
  | .code off len => [(strUtf16 (str "`"), off), (strUtf16 (str "`"), off + len)]
  | .pre off len lang =>
    [(strUtf16 (str "```" ++ lang ++ str "\n"), off),
     (strUtf16 (str "\n```"), off + len)]
  | .textUrl off len url =>
    [(strUtf16 (str "["), off), (strUtf16 (str "](" ++ url ++ str ")"), off + len)]
  | .mentionName off len uid =>
    [(strUtf16 (str "["), off),
     (strUtf16 (str "](tg://user?id=" ++ intStr uid ++ str ")"), off + len)]
  | .blockquote off _ collapsed =>
    [(strUtf16 (if collapsed then str "**> " else str "> "), off)]

/-- Stable insertion for the descending-offset sort: an element goes before
the first kept element with a strictly smaller offset, so elements with equal
offsets keep their build order, as Python's stable `sort(reverse=True)`
does. -/
def sortInsert (x : List Nat × Nat) : List (List Nat × Nat) → List (List Nat × Nat)
  | [] => [x]
  | y :: ys => if x.2 ≥ y.2 then x :: y :: ys else y :: sortInsert x ys

/-- `entities_offsets.sort(key=lambda x: x[1], reverse=True)`. -/
def sortTagsDesc (l : List (List Nat × Nat)) : List (List Nat × Nat) :=
  l.foldr sortInsert []

def unparse (text : Str) (entities : List Entity) : Str :=
  if text.isEmpty then text
  else
    let t := strUtf16 text
    let offs := entities.foldl (fun acc e => acc ++ tagsFor e) []
    removeSurrogates ((sortTagsDesc offs).foldl (fun acc p => pyInsert acc p.2 p.1) t)

/- ### Word classes for the amended round-trip claim -/

/-- ASCII alphanumeric characters: inert for every scanner of the module. -/
def safeChar (c : Char) : Bool :=
  (48 ≤ c.toNat ∧ c.toNat ≤ 57) ∨ (65 ≤ c.toNat ∧ c.toNat ≤ 90) ∨
  (97 ≤ c.toNat ∧ c.toNat ≤ 122)

/-- A nonempty alphanumeric word. -/
def safeWord (w : Str) : Bool := !w.isEmpty && w.all safeChar

/-- Link-target characters: alphanumerics plus `:` and `.`. -/
def safeUrlChar (c : Char) : Bool := safeChar c ∨ c = ':' ∨ c = '.'

/-- A nonempty plain link target. -/
def safeUrl (u : Str) : Bool := !u.isEmpty && u.all safeUrlChar

/-- The punctuation the scanners react to, by code point: `` ` `` 96, `~`
126, `-` 45, `_` 95, `*` 42, `|` 124, `[` 91, `]` 93, `(` 40, `)` 41, `<`
60, `>` 62, newline 10, `"` 34, `/` 47, braces 123/125, space 32. -/
def special (x : Char) : Prop :=
  x.toNat = 96 ∨ x.toNat = 126 ∨ x.toNat = 45 ∨ x.toNat = 95 ∨ x.toNat = 42 ∨
  x.toNat = 124 ∨ x.toNat = 91 ∨ x.toNat = 93 ∨ x.toNat = 40 ∨ x.toNat = 41 ∨
  x.toNat = 60 ∨ x.toNat = 62 ∨ x.toNat = 10 ∨ x.toNat = 34 ∨ x.toNat = 47 ∨
  x.toNat = 123 ∨ x.toNat = 125 ∨ x.toNat = 32

instance (x : Char) : Decidable (special x) := by unfold special; infer_instance

/- ### Spec-side definition for the amended normalization claim -/

/-- The normalization of one entity as the amended claim words it: the id
component of an `emoji/` target is the text between the first and the second
`/` (the url starts with `emoji/`, so the first `/` is the one after
`emoji`), parsed as a Python integer. -/
def specNormalizeOne (e : Entity) : Entity :=
  match e with
  | .textUrl off len url =>
    if url = str "spoiler" then .spoiler off len
    else if (str "emoji/").isPrefixOf url then
      match pyInt ((url.drop 6).takeWhile (· ≠ '/')) with
      | some n => .customEmoji off len n
      | none => .textUrl off len url
    else .textUrl off len url
  | e => e

/- ### Helper lemmas -/

theorem pySplit_ne_nil (t : Str) (sep : Char) : pySplit t sep ≠ [] := by
  cases t with
  | nil => simp [pySplit]
  | cons c cs =>
    by_cases h : c = sep
    · simp [pySplit, h]
    · simp only [pySplit, if_neg h]
      cases hs : pySplit cs sep with
      | nil => simp
      | cons a l => simp

theorem pySplit_head (t : Str) (sep : Char) :
    (pySplit t sep).getD 0 [] = t.takeWhile (· ≠ sep) := by
  induction t with
  | nil => simp [pySplit]
  | cons c cs ih =>
    by_cases h : c = sep
    · simp [pySplit, h, List.takeWhile]
    · simp only [pySplit, if_neg h]
      cases hs : pySplit cs sep with
      | nil => exact absurd hs (pySplit_ne_nil cs sep)
      | cons a l =>
        rw [hs] at ih
        simp only [List.getD_cons_zero] at ih
        simp [List.takeWhile, h, ih]

theorem pySplit_not_mem (t : Str) (sep : Char) (h : sep ∉ t) : pySplit t sep = [t] := by
  induction t with
  | nil => simp [pySplit]
  | cons c cs ih =>
    have hc : ¬ c = sep := fun he => h (he ▸ List.mem_cons_self c cs)
    have hcs : sep ∉ cs := fun hm => h (List.mem_cons_of_mem c hm)
    simp [pySplit, hc, ih hcs]

theorem safeUrlChar_of_safeChar (c : Char) (h : safeChar c = true) :
    safeUrlChar c = true := by
  simp only [safeUrlChar, decide_eq_true_eq]
  exact Or.inl (by simp [h])

theorem safeUrlChar_toNat (c : Char) (h : safeUrlChar c = true) :
    (48 ≤ c.toNat ∧ c.toNat ≤ 57) ∨ (65 ≤ c.toNat ∧ c.toNat ≤ 90) ∨
    (97 ≤ c.toNat ∧ c.toNat ≤ 122) ∨ c.toNat = 58 ∨ c.toNat = 46 := by
  simp only [safeUrlChar, safeChar, decide_eq_true_eq] at h
  rcases h with h | h | h
  · rcases h with h | h | h
    · exact Or.inl h
    · exact Or.inr (Or.inl h)
    · exact Or.inr (Or.inr (Or.inl h))
  · subst h
    exact Or.inr (Or.inr (Or.inr (Or.inl (by decide))))
  · subst h
    exact Or.inr (Or.inr (Or.inr (Or.inr (by decide))))

theorem safe_beq_false (c : Char) (h : safeUrlChar c = true) (x : Char)
    (hx : special x) : (x == c) = false := by
  have hn := safeUrlChar_toNat c h
  rw [beq_eq_false_iff_ne]
  intro he
  subst he
  unfold special at hx
  omega

theorem safe_ne (c : Char) (h : safeUrlChar c = true) (x : Char)
    (hx : special x) : ¬ c = x := by
  intro he
  have hb := safe_beq_false c h x hx
  rw [he] at hb
  simp at hb

theorem not_mem_of_all_safe (w : Str) (hv : w.all safeUrlChar = true)
    (x : Char) (hx : special x) : x ∉ w := by
  intro hm
  have hs : safeUrlChar x = true := by
    rw [List.all_eq_true] at hv
    exact hv x hm
  have hb := safe_beq_false x hs x hx
  simp at hb

theorem all_safeUrl_of_safeWord (w : Str) (h : safeWord w = true) :
    w ≠ [] ∧ w.all safeUrlChar = true := by
  simp only [safeWord, Bool.and_eq_true, List.all_eq_true] at h
  refine ⟨by cases w <;> simp_all, ?_⟩
  rw [List.all_eq_true]
  exact fun c hc => safeUrlChar_of_safeChar c (h.2 c hc)

theorem all_safeUrl_of_safeUrl (u : Str) (h : safeUrl u = true) :
    u ≠ [] ∧ u.all safeUrlChar = true := by
  simp only [safeUrl, Bool.and_eq_true] at h
  exact ⟨by cases u <;> simp_all, h.2⟩

/- Explicit character lists of the concrete delimiter strings. -/

theorem delimStr_pre : delimStr .dPre = ['`', '`', '`'] := rfl

theorem delimStr_code : delimStr .dCode = ['`'] := rfl

theorem delimStr_strike : delimStr .dStrike = ['~', '~'] := rfl

theorem delimStr_und : delimStr .dUnderline = ['-', '-'] := rfl

theorem delimStr_italic : delimStr .dItalic = ['_', '_'] := rfl

theorem delimStr_bold : delimStr .dBold = ['*', '*'] := rfl

theorem delimStr_spoiler : delimStr .dSpoiler = ['|', '|'] := rfl

theorem tryDelim_none (c : Char) (rest : Str) (h : safeUrlChar c = true) :
    tryDelim (c :: rest) = none := by
  have b1 := safe_beq_false c h '`' (by decide)
  have b2 := safe_beq_false c h '~' (by decide)
  have b3 := safe_beq_false c h '-' (by decide)
  have b4 := safe_beq_false c h '_' (by decide)
  have b5 := safe_beq_false c h '*' (by decide)
  have b6 := safe_beq_false c h '|' (by decide)
  simp [tryDelim, delimStr_pre, delimStr_code, delimStr_strike, delimStr_und,
        delimStr_italic, delimStr_bold, delimStr_spoiler, List.isPrefixOf,
        b1, b2, b3, b4, b5, b6]

theorem matchAt_none (c : Char) (rest : Str) (h : safeUrlChar c = true) :
    matchAt (c :: rest) = none := by
  have hlk := safe_ne c h '[' (by decide)
  simp [matchAt, tryDelim_none c rest h, tryLink, hlk]

/- Stepping and walking lemmas for the finditer scan. -/

theorem finditerAux_nil (fuel pos : Nat) : finditerAux fuel pos [] = [] := by
  cases fuel <;> rfl

theorem finditerAux_skip (fuel pos : Nat) (c : Char) (cs : Str)
    (h : matchAt (c :: cs) = none) (hf : 1 ≤ fuel) :
    finditerAux fuel pos (c :: cs) = finditerAux (fuel - 1) (pos + 1) cs := by
  cases fuel with
  | zero => omega
  | succ f => simp [finditerAux, h]

theorem finditerAux_match (fuel pos : Nat) (c : Char) (cs : Str) (tok : Tok)
    (h : matchAt (c :: cs) = some tok) (hf : 1 ≤ fuel) :
    finditerAux fuel pos (c :: cs)
      = (pos, tok) :: finditerAux (fuel - 1) (pos + tokLen tok) ((c :: cs).drop (tokLen tok)) := by
  cases fuel with
  | zero => omega
  | succ f => simp [finditerAux, h]

theorem finditerAux_walk (v : Str) (hv : v.all safeUrlChar = true) :
    ∀ (fuel pos : Nat) (s : Str), v.length ≤ fuel →
    finditerAux fuel pos (v ++ s) = finditerAux (fuel - v.length) (pos + v.length) s := by
  induction v with
  | nil => intro fuel pos s _; simp
  | cons c v' ih =>
    intro fuel pos s hf
    simp only [List.all_cons, Bool.and_eq_true] at hv
    simp only [List.length_cons] at hf
    rw [List.cons_append,
        finditerAux_skip fuel pos c (v' ++ s) (matchAt_none c _ hv.1) (by omega),
        ih hv.2 (fuel - 1) (pos + 1) s (by omega)]
    congr 1 <;> simp <;> omega

/- Occurrence search: `findSub`/`pyFindFrom`/`replaceOnce` on a text that is
safe up to a unique occurrence of the needle. -/

theorem isPrefixOf_append_self (l s : Str) : l.isPrefixOf (l ++ s) = true := by
  induction l with
  | nil => simp [List.isPrefixOf]
  | cons c cs ih => simp [List.isPrefixOf, ih]

theorem findSub_cons_false (c : Char) (cs : Str) (d : Char) (ds : Str)
    (h : (d == c) = false) :
    findSub (c :: cs) (d :: ds) = (findSub cs (d :: ds)).map (· + 1) := by
  simp [findSub, List.isPrefixOf, h]

theorem findSub_walk (v : Str) (d : Char) (ds : Str)
    (hv : ∀ x ∈ v, (d == x) = false) :
    ∀ s : Str, findSub (v ++ s) (d :: ds) = (findSub s (d :: ds)).map (· + v.length) := by
  induction v with
  | nil =>
    intro s
    cases h : findSub s (d :: ds) <;> simp [h]
  | cons c v' ih =>
    intro s
    rw [List.cons_append, findSub_cons_false c (v' ++ s) d ds (hv c (by simp)),
        ih (fun x hx => hv x (by simp [hx])) s]
    cases h : findSub s (d :: ds) <;> simp [h] <;> omega

theorem findSub_at_head (d : Char) (ds Y : Str) :
    findSub ((d :: ds) ++ Y) (d :: ds) = some 0 := by
  have := isPrefixOf_append_self (d :: ds) Y
  rw [List.cons_append] at this ⊢
  simp [findSub, this]

theorem pyFindFrom_mid (X : Str) (d : Char) (ds Y : Str) (start : Nat)
    (hX : ∀ x ∈ X, (d == x) = false) (hs : start ≤ X.length) :
    pyFindFrom (X ++ ((d :: ds) ++ Y)) (d :: ds) start = some X.length := by
  unfold pyFindFrom
  rw [List.drop_append_of_le_length hs,
      findSub_walk (X.drop start) d ds
        (fun x hx => hX x (List.mem_of_mem_drop hx)) ((d :: ds) ++ Y),
      findSub_at_head d ds Y]
  simp [List.length_drop]
  omega

theorem replaceOnce_mid (X : Str) (d : Char) (ds Y new : Str) (start : Nat)
    (hX : ∀ x ∈ X, (d == x) = false) (hs : start ≤ X.length) :
    replaceOnce (X ++ ((d :: ds) ++ Y)) (d :: ds) new start = X ++ (new ++ Y) := by
  simp only [replaceOnce, pyFindFrom_mid X d ds Y start hX hs]
  rw [List.take_left, List.drop_append, List.drop_left]
  simp [List.append_assoc]

/- Stepping and walking lemmas for the tag-to-entity bridge. -/

theorem parseTagsAux_nil (fuel off : Nat) (stack : List (OpenTag × Nat))
    (plain : Str) (ents : List Entity) :
    parseTagsAux fuel [] off stack plain ents = (plain, ents) := by
  cases fuel <;> rfl

theorem parseTagsAux_safe (fuel : Nat) (c : Char) (cs : Str) (off : Nat)
    (stack : List (OpenTag × Nat)) (plain : Str) (ents : List Entity)
    (h : safeUrlChar c = true) (hf : 1 ≤ fuel) :
    parseTagsAux fuel (c :: cs) off stack plain ents
      = parseTagsAux (fuel - 1) cs (off + 1) stack (plain ++ [c]) ents := by
  have hlt : ¬ c = '<' := safe_ne c h '<' (by decide)
  have hw : charWidth c = 1 := by
    have := safeUrlChar_toNat c h
    simp only [charWidth]
    rw [if_pos (by omega)]
  cases fuel with
  | zero => omega
  | succ f => simp [parseTagsAux, hlt, hw]

theorem parseTagsAux_walk (v : Str) (hv : v.all safeUrlChar = true) :
    ∀ (fuel : Nat) (s : Str) (off : Nat) (stack : List (OpenTag × Nat))
      (plain : Str) (ents : List Entity), v.length ≤ fuel →
    parseTagsAux fuel (v ++ s) off stack plain ents
      = parseTagsAux (fuel - v.length) s (off + v.length) stack (plain ++ v) ents := by
  induction v with
  | nil => intro fuel s off stack plain ents _; simp
  | cons c v' ih =>
    intro fuel s off stack plain ents hf
    simp only [List.all_cons, Bool.and_eq_true] at hv
    simp only [List.length_cons] at hf
    rw [List.cons_append,
        parseTagsAux_safe fuel c (v' ++ s) off stack plain ents hv.1 (by omega),
        ih hv.2 (fuel - 1) s (off + 1) stack (plain ++ [c]) ents (by omega)]
    congr 1 <;> simp <;> omega

theorem parseTagsAux_open (fuel : Nat) (cs : Str) (off : Nat)
    (stack : List (OpenTag × Nat)) (plain : Str) (ents : List Entity)
    (o : OpenTag) (len : Nat)
    (h1 : findFixedClose ('<' :: cs) fixedCloses = none)
    (h2 : parseOpenTag ('<' :: cs) = some (o, len)) (hf : 1 ≤ fuel) :
    parseTagsAux fuel ('<' :: cs) off stack plain ents
      = parseTagsAux (fuel - 1) (('<' :: cs).drop len) off ((o, off) :: stack) plain ents := by
  cases fuel with
  | zero => omega
  | succ f => simp [parseTagsAux, h1, h2]

theorem parseTagsAux_close (fuel : Nat) (cs : Str) (off : Nat)
    (stack : List (OpenTag × Nat)) (plain : Str) (ents : List Entity)
    (k : CloseKind) (len : Nat) (o : OpenTag) (start : Nat)
    (stack' : List (OpenTag × Nat))
    (h1 : findFixedClose ('<' :: cs) fixedCloses = some (k, len))
    (h2 : popMatching stack k = some (o, start, stack')) (hf : 1 ≤ fuel) :
    parseTagsAux fuel ('<' :: cs) off stack plain ents
      = parseTagsAux (fuel - 1) (('<' :: cs).drop len) off stack' plain
          (ents ++ [mkEntity o start (off - start)]) := by
  cases fuel with
  | zero => omega
  | succ f => simp [parseTagsAux, h1, h2]

/- Walking lemmas for the link sub-scanners. -/

theorem linkUrlScan_walk (v : Str) (hv : v.all safeUrlChar = true) :
    ∀ s : Str, linkUrlScan (v ++ (')' :: s)) = some v := by
  induction v with
  | nil => intro s; simp [linkUrlScan]
  | cons c v' ih =>
    intro s
    simp only [List.all_cons, Bool.and_eq_true] at hv
    have h1 : ¬ c = ')' := safe_ne c hv.1 ')' (by decide)
    have h2 : ¬ c = '\n' := safe_ne c hv.1 '\n' (by decide)
    rw [List.cons_append]
    simp [linkUrlScan, h1, h2, ih hv.2 s]

theorem linkUrl_safe (u : Str) (hu : u.all safeUrlChar = true) (hne : u ≠ [])
    (s : Str) : linkUrl (u ++ (')' :: s)) = some u := by
  cases u with
  | nil => exact absurd rfl hne
  | cons c u' =>
    simp only [List.all_cons, Bool.and_eq_true] at hu
    have h2 : ¬ c = '\n' := safe_ne c hu.1 '\n' (by decide)
    rw [List.cons_append]
    simp [linkUrl, h2, linkUrlScan_walk u' hu.2 s]

theorem linkLoop_walk (v : Str) (hv : v.all safeUrlChar = true) :
    ∀ (acc r : Str), linkLoop acc (v ++ r) = linkLoop (v.reverse ++ acc) r := by
  induction v with
  | nil => intro acc r; simp
  | cons c v' ih =>
    intro acc r
    simp only [List.all_cons, Bool.and_eq_true] at hv
    have h1 : ¬ c = ']' := safe_ne c hv.1 ']' (by decide)
    have h2 : ¬ c = '\n' := safe_ne c hv.1 '\n' (by decide)
    rw [List.cons_append]
    simp [linkLoop, h1, h2, ih hv.2 (c :: acc) r, List.append_assoc]

theorem linkLoop_close (acc u : Str) (hu : u.all safeUrlChar = true)
    (hne : u ≠ []) (s : Str) :
    linkLoop acc (']' :: '(' :: (u ++ (')' :: s))) = some (acc.reverse, u) := by
  simp [linkLoop, linkUrl_safe u hu hne s]

/- Walking lemma for attribute scanning. -/

theorem scanQuoted_walk (v : Str) (hv : v.all safeUrlChar = true) :
    ∀ s : Str, scanQuoted (v ++ ('"' :: s)) = some (v, s) := by
  induction v with
  | nil => intro s; simp [scanQuoted]
  | cons c v' ih =>
    intro s
    simp only [List.all_cons, Bool.and_eq_true] at hv
    have h1 : ¬ c = '"' := safe_ne c hv.1 '"' (by decide)
    rw [List.cons_append]
    simp [scanQuoted, h1, ih hv.2 s]

/- Surrogate codec on BMP input. -/

theorem charUtf16_small (c : Char) (h : c.toNat < 65536) :
    charUtf16 c = [c.toNat] := by
  simp [charUtf16, h]

theorem strUtf16_small (s : Str) (h : ∀ c ∈ s, c.toNat < 65536) :
    strUtf16 s = s.map Char.toNat := by
  induction s with
  | nil => rfl
  | cons c cs ih =>
    simp only [strUtf16, List.foldr_cons] at *
    rw [charUtf16_small c (h c (by simp)), ih fun x hx => h x (by simp [hx])]
    rfl

theorem removeSurrogates_small :
    ∀ us : List Nat, (∀ u ∈ us, u < 55296) → removeSurrogates us = us.map Char.ofNat
  | [], _ => rfl
  | [u], _ => rfl
  | h :: l :: rest, hlt => by
    have hh : h < 55296 := hlt h (by simp)
    have hhigh : isHighSur h = false := by
      simp only [isHighSur, decide_eq_false_iff_not]
      omega
    rw [removeSurrogates, if_neg (by simp [hhigh])]
    rw [removeSurrogates_small (l :: rest) fun u hu => hlt u (by simp at hu ⊢; tauto)]
    rfl

theorem toNat_lt_of_safe (c : Char) (h : safeUrlChar c = true) : c.toNat < 55296 := by
  have := safeUrlChar_toNat c h
  omega

/- Blockquote preprocessor and code shield on inert input. -/

theorem intercalate_singleton (sep : Str) (x : Str) : List.intercalate sep [x] = x := by
  simp [List.intercalate]

theorem blockquoteParser_id (t : Str) (h1 : '\n' ∉ t)
    (h2 : (str ">").isPrefixOf t = false) : blockquoteParser t = t := by
  rw [blockquoteParser, pySplit_not_mem t '\n' h1]
  simp [blockquoteStep, h2, intercalate_singleton]

theorem codeFindAllAux_nil :
    ∀ (fuel : Nat) (t : Str), '<' ∉ t → codeFindAllAux fuel t = []
  | 0, t, _ => by cases t <;> rfl
  | fuel + 1, [], _ => rfl
  | fuel + 1, c :: cs, h => by
    have hc : ¬ c = '<' := fun he => h (he ▸ List.mem_cons_self c cs)
    have hp : (str "<code>").isPrefixOf (c :: cs) = false := by
      rw [show str "<code>" = '<' :: str "code>" from rfl]
      simp [List.isPrefixOf]
      intro he
      exact absurd he.symm hc
    rw [codeFindAllAux, hp]
    simp only [Bool.false_eq_true, if_false]
    exact codeFindAllAux_nil fuel cs fun hm => h (List.mem_cons_of_mem c hm)

theorem codeFindAll_nil (t : Str) (h : '<' ∉ t) : codeFindAll t = [] :=
  codeFindAllAux_nil t.length t h

/- Generic single-delimiter pipeline: `D ++ w ++ D` for a toggling delimiter
`D` around an inert word tokenizes to `O ++ w ++ C`, parses to `(w, [e])` and
unparses back to `D ++ w ++ D`. -/

theorem finditer_single (d : Delim) (dh : Char) (dt : Str) (w : Str)
    (hds : delimStr d = dh :: dt)
    (hw : w.all safeUrlChar = true)
    (hm1 : matchAt (delimStr d ++ (w ++ delimStr d)) = some (.tokDelim d))
    (hm2 : matchAt (delimStr d) = some (.tokDelim d)) :
    finditer (delimStr d ++ (w ++ delimStr d))
      = [(0, .tokDelim d), ((delimStr d).length + w.length, .tokDelim d)] := by
  have hD1 : 1 ≤ (delimStr d).length := by rw [hds]; simp
  have hlen : tokLen (Tok.tokDelim d) = (delimStr d).length := rfl
  have hcons : delimStr d ++ (w ++ delimStr d) = dh :: (dt ++ (w ++ delimStr d)) := by
    rw [hds, List.cons_append]
  have hF : (delimStr d ++ (w ++ delimStr d)).length
      = (delimStr d).length + w.length + (delimStr d).length := by
    simp [List.length_append]
    omega
  rw [finditer, hF, hcons]
  rw [finditerAux_match _ 0 dh _ _ (hcons ▸ hm1) (by omega)]
  rw [hlen, ← hcons, List.drop_left, Nat.zero_add]
  rw [finditerAux_walk w hw _ _ _ (by omega)]
  rw [hds]
  have hlen2 : tokLen (Tok.tokDelim d) = (dh :: dt).length := by rw [hlen, hds]
  rw [finditerAux_match _ _ dh dt _ (hds ▸ hm2) (by omega)]
  rw [hlen2, List.drop_length, finditerAux_nil]

theorem tokenize_single (d : Delim) (dh : Char) (dt : Str) (w : Str)
    (hds : delimStr d = dh :: dt)
    (hdp : d ≠ .dPre)
    (hw : w.all safeUrlChar = true)
    (hm1 : matchAt (delimStr d ++ (w ++ delimStr d)) = some (.tokDelim d))
    (hm2 : matchAt (delimStr d) = some (.tokDelim d))
    (hO : ∀ x ∈ openingTag (tagName d), (dh == x) = false)
    (hsp : special dh)
    (hlen : (delimStr d).length ≤ (openingTag (tagName d)).length) :
    tokenizeText (delimStr d ++ (w ++ delimStr d))
      = { delims := [], fixedWidth := false,
          text := openingTag (tagName d) ++ (w ++ closingTag (tagName d)) } := by
  rw [tokenizeText, finditer_single d dh dt w hds hw hm1 hm2]
  have hXw : ∀ x ∈ openingTag (tagName d) ++ w, (dh == x) = false := by
    intro x hx
    rcases List.mem_append.mp hx with hx | hx
    · exact hO x hx
    · exact safe_beq_false x (by rw [List.all_eq_true] at hw; exact hw x hx) dh hsp
  have hs2 : (delimStr d).length + w.length ≤ (openingTag (tagName d) ++ w).length := by
    simp [List.length_append]
    omega
  have hstep1 : tokenStep (initTokState (delimStr d ++ (w ++ delimStr d)))
      (0, .tokDelim d)
      = { delims := [d], fixedWidth := isCodeOrPre (.tokDelim d),
          text := openingTag (tagName d) ++ (w ++ delimStr d) } := by
    have hrep : replaceOnce (delimStr d ++ (w ++ delimStr d)) (delimStr d)
        (openingTag (tagName d)) 0
        = openingTag (tagName d) ++ (w ++ delimStr d) := by
      have := replaceOnce_mid [] dh dt (w ++ delimStr d) (openingTag (tagName d)) 0
        (by simp) (by simp)
      simpa [hds] using this
    cases hcp : isCodeOrPre (.tokDelim d) <;>
      simp [tokenStep, initTokState, hcp, hdp, hrep]
  have hstep2 : tokenStep
      { delims := [d], fixedWidth := isCodeOrPre (.tokDelim d),
        text := openingTag (tagName d) ++ (w ++ delimStr d) }
      ((delimStr d).length + w.length, .tokDelim d)
      = { delims := [], fixedWidth := false,
          text := openingTag (tagName d) ++ (w ++ closingTag (tagName d)) } := by
    have hrep : replaceOnce (openingTag (tagName d) ++ (w ++ delimStr d))
        (delimStr d) (closingTag (tagName d)) ((delimStr d).length + w.length)
        = openingTag (tagName d) ++ (w ++ closingTag (tagName d)) := by
      have h2 := replaceOnce_mid (openingTag (tagName d) ++ w) dh dt []
        (closingTag (tagName d)) ((delimStr d).length + w.length) hXw hs2
      simp only [List.append_nil, List.append_assoc] at h2
      rw [← hds] at h2
      exact h2
    have hrm : removeDelim [d] d = [] := by simp [removeDelim]
    cases hcp : isCodeOrPre (.tokDelim d) <;>
      simp [tokenStep, hcp, hrep, hrm]
  simp only [List.foldl_cons, List.foldl_nil, hstep1, hstep2]

theorem parseTags_single (d : Delim) (w : Str) (oX : OpenTag) (kX : CloseKind)
    (hw : w.all safeUrlChar = true)
    (hfc : findFixedClose (openingTag (tagName d) ++ (w ++ closingTag (tagName d)))
        fixedCloses = none)
    (hpo : parseOpenTag (openingTag (tagName d) ++ (w ++ closingTag (tagName d)))
        = some (oX, (openingTag (tagName d)).length))
    (hfcC : findFixedClose (closingTag (tagName d)) fixedCloses
        = some (kX, (closingTag (tagName d)).length))
    (hcm : closeMatches oX kX = true) :
    parseTags (openingTag (tagName d) ++ (w ++ closingTag (tagName d)))
      = (w, [mkEntity oX 0 w.length]) := by
  have hOcons : openingTag (tagName d) = '<' :: (tagName d ++ ['>']) := rfl
  have hCcons : closingTag (tagName d) = '<' :: ('/' :: (tagName d ++ ['>'])) := rfl
  have hO1 : 1 ≤ (openingTag (tagName d)).length := by rw [hOcons]; simp
  have hC1 : 1 ≤ (closingTag (tagName d)).length := by rw [hCcons]; simp
  have hc2 : openingTag (tagName d) ++ (w ++ closingTag (tagName d))
      = '<' :: ((tagName d ++ ['>']) ++ (w ++ closingTag (tagName d))) := by
    rw [hOcons, List.cons_append]
  rw [parseTags, hc2]
  rw [parseTagsAux_open _ _ 0 [] [] [] oX (openingTag (tagName d)).length
    (hc2 ▸ hfc) (hc2 ▸ hpo) (by simp)]
  rw [← hc2, List.drop_left]
  rw [parseTagsAux_walk w hw _ _ _ _ _ _ (by simp [List.length_append]; omega)]
  simp only [List.nil_append, Nat.zero_add]
  rw [hCcons]
  rw [parseTagsAux_close _ _ _ _ _ _ kX ('<' :: ('/' :: (tagName d ++ ['>']))).length
    oX 0 [] (hCcons ▸ hfcC) (by simp [popMatching, hcm])
    (by simp [List.length_append]; omega)]
  rw [List.drop_length, parseTagsAux_nil]
  simp

theorem unparse_single (e : Entity) (D : Str) (w : Str)
    (hw : w.all safeUrlChar = true) (hne : w ≠ [])
    (htags : tagsFor e = [(strUtf16 D, 0), (strUtf16 D, w.length)])
    (hDlt : ∀ c ∈ D, c.toNat < 55296) :
    unparse w [e] = D ++ (w ++ D) := by
  have hwe : w.isEmpty = false := by cases w with | nil => exact absurd rfl hne | cons a l => rfl
  have hw16 : strUtf16 w = w.map Char.toNat := by
    refine strUtf16_small w fun c hc => ?_
    have := toNat_lt_of_safe c (by rw [List.all_eq_true] at hw; exact hw c hc)
    omega
  have hD16 : strUtf16 D = D.map Char.toNat := by
    refine strUtf16_small D fun c hc => ?_
    have := hDlt c hc
    omega
  have hwl : 1 ≤ w.length := by cases w with | nil => exact absurd rfl hne | cons a l => simp
  rw [unparse]
  rw [if_neg (by rw [hwe]; simp)]
  simp only [List.foldl_cons, List.foldl_nil, List.nil_append, htags]
  rw [show sortTagsDesc [(strUtf16 D, 0), (strUtf16 D, w.length)]
      = [(strUtf16 D, w.length), (strUtf16 D, 0)] by
    simp only [sortTagsDesc, List.foldr_cons, List.foldr_nil, sortInsert]
    rw [if_neg (show ¬ (0 ≥ w.length) by omega)]]
  simp only [List.foldl_cons, List.foldl_nil]
  rw [show pyInsert (strUtf16 w) w.length (strUtf16 D)
      = strUtf16 w ++ strUtf16 D by
    rw [pyInsert, List.take_of_length_le (by rw [hw16]; simp),
        List.drop_of_length_le (by rw [hw16]; simp), List.append_nil]]
  rw [show pyInsert (strUtf16 w ++ strUtf16 D) 0 (strUtf16 D)
      = strUtf16 D ++ (strUtf16 w ++ strUtf16 D) by
    rw [pyInsert, List.take_zero, List.drop_zero, List.nil_append]]
  rw [hw16, hD16, ← List.map_append, ← List.map_append,
      removeSurrogates_small _ (by
        intro u hu
        simp only [List.mem_map, List.mem_append] at hu
        obtain ⟨c, hc, rfl⟩ := hu
        rcases hc with hc | hc | hc
        · exact hDlt c hc
        · exact toNat_lt_of_safe c (by rw [List.all_eq_true] at hw; exact hw c hc)
        · exact hDlt c hc),
      List.map_map]
  have hco : (Char.ofNat ∘ Char.toNat) = id := funext fun c => Char.ofNat_toNat c
  rw [hco, List.map_id]

theorem parse_single (d : Delim) (dh : Char) (dt : Str) (w : Str)
    (oX : OpenTag) (kX : CloseKind) (e : Entity)
    (hds : delimStr d = dh :: dt)
    (hdp : d ≠ .dPre)
    (hw : w.all safeUrlChar = true)
    (hm1 : matchAt (delimStr d ++ (w ++ delimStr d)) = some (.tokDelim d))
    (hm2 : matchAt (delimStr d) = some (.tokDelim d))
    (hO : ∀ x ∈ openingTag (tagName d), (dh == x) = false)
    (hsp : special dh)
    (hlen : (delimStr d).length ≤ (openingTag (tagName d)).length)
    (hnl : '\n' ∉ delimStr d)
    (hlt : '<' ∉ delimStr d)
    (hgt : ('>' == dh) = false)
    (hfc : findFixedClose (openingTag (tagName d) ++ (w ++ closingTag (tagName d)))
        fixedCloses = none)
    (hpo : parseOpenTag (openingTag (tagName d) ++ (w ++ closingTag (tagName d)))
        = some (oX, (openingTag (tagName d)).length))
    (hfcC : findFixedClose (closingTag (tagName d)) fixedCloses
        = some (kX, (closingTag (tagName d)).length))
    (hcm : closeMatches oX kX = true)
    (hmk : mkEntity oX 0 w.length = e)
    (hnorm : normOne e = e) :
    parse (delimStr d ++ (w ++ delimStr d)) = (w, [e]) := by
  have hne : (delimStr d ++ (w ++ delimStr d)).isEmpty = false := by
    rw [hds, List.cons_append]
    rfl
  have hbq : blockquoteParser (delimStr d ++ (w ++ delimStr d))
      = delimStr d ++ (w ++ delimStr d) := by
    refine blockquoteParser_id _ (fun hm => ?_) ?_
    · rcases List.mem_append.mp hm with hm | hm
      · exact hnl hm
      · rcases List.mem_append.mp hm with hm | hm
        · exact not_mem_of_all_safe w hw '\n' (by decide) hm
        · exact hnl hm
    · rw [hds, List.cons_append, show str ">" = ['>'] from rfl]
      simp [List.isPrefixOf, hgt]
  have hcf : codeFindAll (delimStr d ++ (w ++ delimStr d)) = [] := by
    refine codeFindAll_nil _ fun hm => ?_
    rcases List.mem_append.mp hm with hm | hm
    · exact hlt hm
    · rcases List.mem_append.mp hm with hm | hm
      · exact not_mem_of_all_safe w hw '<' (by decide) hm
      · exact hlt hm
  have hpt := parseTags_single d w oX kX hw hfc hpo hfcC hcm
  simp only [parse, hne, Bool.false_eq_true, if_false]
  rw [hbq, hcf]
  simp only [shieldAux]
  rw [tokenize_single d dh dt w hds hdp hw hm1 hm2 hO hsp hlen]
  simp only [restoreAll, List.foldl_nil, hpt]
  simp only [normalizeEntities, List.map_cons, List.map_nil, hmk, hnorm]

theorem roundTrip_delim (d : Delim) (dh : Char) (dt : Str) (w : Str)
    (oX : OpenTag) (kX : CloseKind) (e : Entity)
    (hds : delimStr d = dh :: dt)
    (hdp : d ≠ .dPre)
    (hw : w.all safeUrlChar = true)
    (hm1 : matchAt (delimStr d ++ (w ++ delimStr d)) = some (.tokDelim d))
    (hm2 : matchAt (delimStr d) = some (.tokDelim d))
    (hO : ∀ x ∈ openingTag (tagName d), (dh == x) = false)
    (hsp : special dh)
    (hlen : (delimStr d).length ≤ (openingTag (tagName d)).length)
    (hnl : '\n' ∉ delimStr d)
    (hlt : '<' ∉ delimStr d)
    (hgt : ('>' == dh) = false)
    (hfc : findFixedClose (openingTag (tagName d) ++ (w ++ closingTag (tagName d)))
        fixedCloses = none)
    (hpo : parseOpenTag (openingTag (tagName d) ++ (w ++ closingTag (tagName d)))
        = some (oX, (openingTag (tagName d)).length))
    (hfcC : findFixedClose (closingTag (tagName d)) fixedCloses
        = some (kX, (closingTag (tagName d)).length))
    (hcm : closeMatches oX kX = true)
    (hmk : mkEntity oX 0 w.length = e)
    (hnorm : normOne e = e)
    (htags : tagsFor e = [(strUtf16 (delimStr d), 0), (strUtf16 (delimStr d), w.length)])
    (hDlt : ∀ c ∈ delimStr d, c.toNat < 55296)
    (hwne : w ≠ []) :
    unparse (parse (delimStr d ++ (w ++ delimStr d))).1
        (parse (delimStr d ++ (w ++ delimStr d))).2
      = delimStr d ++ (w ++ delimStr d) := by
  rw [parse_single d dh dt w oX kX e hds hdp hw hm1 hm2 hO hsp hlen hnl hlt hgt
      hfc hpo hfcC hcm hmk hnorm]
  exact unparse_single e (delimStr d) w hw hwne htags hDlt

theorem rt_bold (w : Str) (hw : safeWord w = true) :
    unparse (parse (str "**" ++ (w ++ str "**"))).1
        (parse (str "**" ++ (w ++ str "**"))).2 = str "**" ++ (w ++ str "**") := by
  obtain ⟨hne, hsafe⟩ := all_safeUrl_of_safeWord w hw
  have hm1 : matchAt (delimStr .dBold ++ (w ++ delimStr .dBold))
      = some (.tokDelim .dBold) := by
    rw [delimStr_bold, List.cons_append, List.cons_append]
    simp [matchAt, tryDelim, delimStr_pre, delimStr_code, delimStr_strike,
          delimStr_und, delimStr_italic, delimStr_bold, delimStr_spoiler,
          List.isPrefixOf]
  have hfc : findFixedClose (openingTag (tagName .dBold)
      ++ (w ++ closingTag (tagName .dBold))) fixedCloses = none := by
    rw [show openingTag (tagName .dBold) = ['<', 'b', '>'] from by decide]
    simp [findFixedClose, fixedCloses, List.isPrefixOf]
  have hpo : parseOpenTag (openingTag (tagName .dBold)
      ++ (w ++ closingTag (tagName .dBold)))
      = some (.oB, (openingTag (tagName .dBold)).length) := by
    rw [show openingTag (tagName .dBold) = ['<', 'b', '>'] from by decide]
    simp [parseOpenTag, findFixedOpen, fixedOpens, List.isPrefixOf, str]
  exact roundTrip_delim .dBold '*' ['*'] w .oB .cB (.bold 0 w.length) rfl (by decide)
    hsafe hm1 (by decide) (by decide) (by decide) (by decide) (by decide) (by decide)
    (by decide) hfc hpo (by decide) (by decide) rfl rfl
    (by simp [tagsFor, delimStr]) (by decide) hne

theorem rt_italic (w : Str) (hw : safeWord w = true) :
    unparse (parse (str "__" ++ (w ++ str "__"))).1
        (parse (str "__" ++ (w ++ str "__"))).2 = str "__" ++ (w ++ str "__") := by
  obtain ⟨hne, hsafe⟩ := all_safeUrl_of_safeWord w hw
  have hm1 : matchAt (delimStr .dItalic ++ (w ++ delimStr .dItalic))
      = some (.tokDelim .dItalic) := by
    rw [delimStr_italic, List.cons_append, List.cons_append]
    simp [matchAt, tryDelim, delimStr_pre, delimStr_code, delimStr_strike,
          delimStr_und, delimStr_italic, delimStr_bold, delimStr_spoiler,
          List.isPrefixOf]
  have hfc : findFixedClose (openingTag (tagName .dItalic)
      ++ (w ++ closingTag (tagName .dItalic))) fixedCloses = none := by
    rw [show openingTag (tagName .dItalic) = ['<', 'i', '>'] from by decide]
    simp [findFixedClose, fixedCloses, List.isPrefixOf]
  have hpo : parseOpenTag (openingTag (tagName .dItalic)
      ++ (w ++ closingTag (tagName .dItalic)))
      = some (.oI, (openingTag (tagName .dItalic)).length) := by
    rw [show openingTag (tagName .dItalic) = ['<', 'i', '>'] from by decide]
    simp [parseOpenTag, findFixedOpen, fixedOpens, List.isPrefixOf, str]
  exact roundTrip_delim .dItalic '_' ['_'] w .oI .cI (.italic 0 w.length) rfl (by decide)
    hsafe hm1 (by decide) (by decide) (by decide) (by decide) (by decide) (by decide)
    (by decide) hfc hpo (by decide) (by decide) rfl rfl
    (by simp [tagsFor, delimStr]) (by decide) hne

theorem rt_underline (w : Str) (hw : safeWord w = true) :
    unparse (parse (str "--" ++ (w ++ str "--"))).1
        (parse (str "--" ++ (w ++ str "--"))).2 = str "--" ++ (w ++ str "--") := by
  obtain ⟨hne, hsafe⟩ := all_safeUrl_of_safeWord w hw
  have hm1 : matchAt (delimStr .dUnderline ++ (w ++ delimStr .dUnderline))
      = some (.tokDelim .dUnderline) := by
    rw [delimStr_und, List.cons_append, List.cons_append]
    simp [matchAt, tryDelim, delimStr_pre, delimStr_code, delimStr_strike,
          delimStr_und, delimStr_italic, delimStr_bold, delimStr_spoiler,
          List.isPrefixOf]
  have hfc : findFixedClose (openingTag (tagName .dUnderline)
      ++ (w ++ closingTag (tagName .dUnderline))) fixedCloses = none := by
    rw [show openingTag (tagName .dUnderline) = ['<', 'u', '>'] from by decide]
    simp [findFixedClose, fixedCloses, List.isPrefixOf]
  have hpo : parseOpenTag (openingTag (tagName .dUnderline)
      ++ (w ++ closingTag (tagName .dUnderline)))
      = some (.oU, (openingTag (tagName .dUnderline)).length) := by
    rw [show openingTag (tagName .dUnderline) = ['<', 'u', '>'] from by decide]
    simp [parseOpenTag, findFixedOpen, fixedOpens, List.isPrefixOf, str]
  exact roundTrip_delim .dUnderline '-' ['-'] w .oU .cU (.underline 0 w.length) rfl
    (by decide) hsafe hm1 (by decide) (by decide) (by decide) (by decide) (by decide)
    (by decide) (by decide) hfc hpo (by decide) (by decide) rfl rfl
    (by simp [tagsFor, delimStr]) (by decide) hne

theorem rt_strike (w : Str) (hw : safeWord w = true) :
    unparse (parse (str "~~" ++ (w ++ str "~~"))).1
        (parse (str "~~" ++ (w ++ str "~~"))).2 = str "~~" ++ (w ++ str "~~") := by
  obtain ⟨hne, hsafe⟩ := all_safeUrl_of_safeWord w hw
  have hm1 : matchAt (delimStr .dStrike ++ (w ++ delimStr .dStrike))
      = some (.tokDelim .dStrike) := by
    rw [delimStr_strike, List.cons_append, List.cons_append]
    simp [matchAt, tryDelim, delimStr_pre, delimStr_code, delimStr_strike,
          delimStr_und, delimStr_italic, delimStr_bold, delimStr_spoiler,
          List.isPrefixOf]
  have hfc : findFixedClose (openingTag (tagName .dStrike)
      ++ (w ++ closingTag (tagName .dStrike))) fixedCloses = none := by
    rw [show openingTag (tagName .dStrike) = ['<', 's', '>'] from by decide]
    simp [findFixedClose, fixedCloses, List.isPrefixOf]
  have hpo : parseOpenTag (openingTag (tagName .dStrike)
      ++ (w ++ closingTag (tagName .dStrike)))
      = some (.oS, (openingTag (tagName .dStrike)).length) := by
    rw [show openingTag (tagName .dStrike) = ['<', 's', '>'] from by decide]
    simp [parseOpenTag, findFixedOpen, fixedOpens, List.isPrefixOf, str]
  exact roundTrip_delim .dStrike '~' ['~'] w .oS .cS (.strike 0 w.length) rfl (by decide)
    hsafe hm1 (by decide) (by decide) (by decide) (by decide) (by decide) (by decide)
    (by decide) hfc hpo (by decide) (by decide) rfl rfl
    (by simp [tagsFor, delimStr]) (by decide) hne

theorem rt_spoiler (w : Str) (hw : safeWord w = true) :
    unparse (parse (str "||" ++ (w ++ str "||"))).1
        (parse (str "||" ++ (w ++ str "||"))).2 = str "||" ++ (w ++ str "||") := by
  obtain ⟨hne, hsafe⟩ := all_safeUrl_of_safeWord w hw
  have hm1 : matchAt (delimStr .dSpoiler ++ (w ++ delimStr .dSpoiler))
      = some (.tokDelim .dSpoiler) := by
    rw [delimStr_spoiler, List.cons_append, List.cons_append]
    simp [matchAt, tryDelim, delimStr_pre, delimStr_code, delimStr_strike,
          delimStr_und, delimStr_italic, delimStr_bold, delimStr_spoiler,
          List.isPrefixOf]
  have hfc : findFixedClose (openingTag (tagName .dSpoiler)
      ++ (w ++ closingTag (tagName .dSpoiler))) fixedCloses = none := by
    rw [show openingTag (tagName .dSpoiler)
        = ['<', 's', 'p', 'o', 'i', 'l', 'e', 'r', '>'] from by decide]
    simp [findFixedClose, fixedCloses, List.isPrefixOf]
  have hpo : parseOpenTag (openingTag (tagName .dSpoiler)
      ++ (w ++ closingTag (tagName .dSpoiler)))
      = some (.oSpoiler, (openingTag (tagName .dSpoiler)).length) := by
    rw [show openingTag (tagName .dSpoiler)
        = ['<', 's', 'p', 'o', 'i', 'l', 'e', 'r', '>'] from by decide]
    simp [parseOpenTag, findFixedOpen, fixedOpens, List.isPrefixOf, str]
  exact roundTrip_delim .dSpoiler '|' ['|'] w .oSpoiler .cSpoiler
    (.spoiler 0 w.length) rfl (by decide) hsafe hm1 (by decide) (by decide) (by decide)
    (by decide) (by decide) (by decide) (by decide) hfc hpo (by decide) (by decide)
    rfl rfl (by simp [tagsFor, delimStr]) (by decide) hne

theorem rt_code (w : Str) (hw : safeWord w = true) :
    unparse (parse (str "`" ++ (w ++ str "`"))).1
        (parse (str "`" ++ (w ++ str "`"))).2 = str "`" ++ (w ++ str "`") := by
  obtain ⟨hne, hsafe⟩ := all_safeUrl_of_safeWord w hw
  obtain ⟨c, w', rfl⟩ : ∃ c w', w = c :: w' := by
    cases w with
    | nil => exact absurd rfl hne
    | cons c w' => exact ⟨c, w', rfl⟩
  have hc : safeUrlChar c = true := by
    simp only [List.all_cons, Bool.and_eq_true] at hsafe
    exact hsafe.1
  have hbc : ('`' == c) = false := safe_beq_false c hc '`' (by decide)
  have hm1 : matchAt (delimStr .dCode ++ ((c :: w') ++ delimStr .dCode))
      = some (.tokDelim .dCode) := by
    rw [delimStr_code, List.cons_append, List.cons_append]
    simp [matchAt, tryDelim, delimStr_pre, delimStr_code, delimStr_strike,
          delimStr_und, delimStr_italic, delimStr_bold, delimStr_spoiler,
          List.isPrefixOf, hbc]
  have hfc : findFixedClose (openingTag (tagName .dCode)
      ++ ((c :: w') ++ closingTag (tagName .dCode))) fixedCloses = none := by
    rw [show openingTag (tagName .dCode) = ['<', 'c', 'o', 'd', 'e', '>'] from by decide]
    simp [findFixedClose, fixedCloses, List.isPrefixOf]
  have hpo : parseOpenTag (openingTag (tagName .dCode)
      ++ ((c :: w') ++ closingTag (tagName .dCode)))
      = some (.oCode, (openingTag (tagName .dCode)).length) := by
    rw [show openingTag (tagName .dCode) = ['<', 'c', 'o', 'd', 'e', '>'] from by decide]
    simp [parseOpenTag, findFixedOpen, fixedOpens, List.isPrefixOf, str]
  exact roundTrip_delim .dCode '`' [] (c :: w') .oCode .cCode
    (.code 0 (c :: w').length) rfl (by decide) hsafe hm1 (by decide) (by decide)
    (by decide) (by decide) (by decide) (by decide) (by decide) hfc hpo (by decide)
    (by decide) rfl rfl (by simp [tagsFor, delimStr]) (by decide) hne

theorem parseTags_link (w u : Str) (hw : w.all safeUrlChar = true)
    (hu : u.all safeUrlChar = true) :
    parseTags (urlMarkup u w) = (w, [.textUrl 0 w.length u]) := by
  have hA : str "<a href=\"" = ['<', 'a', ' ', 'h', 'r', 'e', 'f', '=', '"'] := rfl
  have hq : str "\">" = ['"', '>'] := rfl
  have hca : str "</a>" = ['<', '/', 'a', '>'] := rfl
  have hcons : urlMarkup u w
      = '<' :: (['a', ' ', 'h', 'r', 'e', 'f', '=', '"']
          ++ (u ++ (['"', '>'] ++ (w ++ str "</a>")))) := by
    rw [urlMarkup, hA, hq]
    simp [List.append_assoc]
  have hfc : findFixedClose ('<' :: (['a', ' ', 'h', 'r', 'e', 'f', '=', '"']
      ++ (u ++ (['"', '>'] ++ (w ++ str "</a>"))))) fixedCloses = none := by
    simp [findFixedClose, fixedCloses, List.isPrefixOf]
  have hsq : scanQuoted (u ++ ('"' :: ('>' :: (w ++ ['<', '/', 'a', '>']))))
      = some (u, '>' :: (w ++ ['<', '/', 'a', '>'])) := scanQuoted_walk u hu _
  have hpo : parseOpenTag ('<' :: (['a', ' ', 'h', 'r', 'e', 'f', '=', '"']
      ++ (u ++ (['"', '>'] ++ (w ++ str "</a>")))))
      = some (.oA u, 11 + u.length) := by
    simp only [hca]
    simp [parseOpenTag, findFixedOpen, fixedOpens, List.isPrefixOf, str, hsq]
    omega
  rw [parseTags, hcons]
  rw [parseTagsAux_open _ _ 0 [] [] [] (.oA u) (11 + u.length) hfc hpo (by simp)]
  rw [show ('<' :: (['a', ' ', 'h', 'r', 'e', 'f', '=', '"']
      ++ (u ++ (['"', '>'] ++ (w ++ str "</a>"))))).drop (11 + u.length)
      = w ++ str "</a>" by
    rw [show '<' :: (['a', ' ', 'h', 'r', 'e', 'f', '=', '"']
        ++ (u ++ (['"', '>'] ++ (w ++ str "</a>"))))
        = (('<' :: (['a', ' ', 'h', 'r', 'e', 'f', '=', '"'] ++ (u ++ ['"', '>'])))
            ++ (w ++ str "</a>")) by simp [List.append_assoc]]
    rw [List.drop_left' (by simp [List.length_append]; omega)]]
  rw [parseTagsAux_walk w hw _ _ _ _ _ _ (by simp [List.length_append]; omega)]
  simp only [List.nil_append, Nat.zero_add]
  rw [hca]
  rw [parseTagsAux_close _ _ _ _ _ _ .cA 4 (.oA u) 0 []
    (by simp [findFixedClose, fixedCloses, List.isPrefixOf, str])
    (by simp [popMatching, closeMatches]) (by simp [List.length_append]; omega)]
  simp [parseTagsAux_nil, mkEntity]

theorem matchAt_link (w u : Str) (hw : w.all safeUrlChar = true) (hwne : w ≠ [])
    (hu : u.all safeUrlChar = true) (hune : u ≠ []) :
    matchAt ('[' :: (w ++ (']' :: '(' :: (u ++ [')'])))) = some (.tokLink w u) := by
  obtain ⟨c, w', rfl⟩ : ∃ c w', w = c :: w' := by
    cases w with
    | nil => exact absurd rfl hwne
    | cons c w' => exact ⟨c, w', rfl⟩
  simp only [List.all_cons, Bool.and_eq_true] at hw
  have hcn : ¬ c = '\n' := safe_ne c hw.1 '\n' (by decide)
  have htd : tryDelim ('[' :: ((c :: w') ++ (']' :: '(' :: (u ++ [')'])))) = none := by
    simp [tryDelim, delimStr_pre, delimStr_code, delimStr_strike, delimStr_und,
          delimStr_italic, delimStr_bold, delimStr_spoiler, List.isPrefixOf]
  rw [matchAt, htd]
  rw [List.cons_append]
  simp only [tryLink, if_pos rfl, hcn, if_neg hcn]
  rw [linkLoop_walk w' hw.2 [c] _, linkLoop_close _ u hu hune []]
  simp [List.reverse_append]

theorem tokenize_link (w u : Str) (hw : w.all safeUrlChar = true) (hwne : w ≠ [])
    (hu : u.all safeUrlChar = true) (hune : u ≠ []) :
    tokenizeText ('[' :: (w ++ (']' :: '(' :: (u ++ [')']))))
      = { delims := [], fixedWidth := false, text := urlMarkup u w } := by
  have hm1 := matchAt_link w u hw hwne hu hune
  have hful : tokFull (.tokLink w u) = '[' :: (w ++ (']' :: '(' :: (u ++ [')']))) := rfl
  have hlen : tokLen (.tokLink w u) = ('[' :: (w ++ (']' :: '(' :: (u ++ [')'])))).length := by
    rw [tokLen, hful]
  rw [tokenizeText, finditer]
  rw [finditerAux_match _ 0 '[' _ _ hm1 (by simp)]
  rw [hlen, List.drop_length, finditerAux_nil]
  simp only [List.foldl_cons, List.foldl_nil]
  have hrep : replaceOnce ('[' :: (w ++ (']' :: '(' :: (u ++ [')']))))
      (tokFull (.tokLink w u)) (urlMarkup u w) 0 = urlMarkup u w := by
    have h2 := replaceOnce_mid [] '[' (w ++ (']' :: '(' :: (u ++ [')']))) []
      (urlMarkup u w) 0 (by simp) (by simp)
    simp only [List.nil_append, List.append_nil] at h2
    rw [hful]
    exact h2
  simp [tokenStep, initTokState, isCodeOrPre, hrep]

theorem parse_link (w u : Str) (hw : w.all safeUrlChar = true) (hwne : w ≠ [])
    (hu : u.all safeUrlChar = true) (hune : u ≠ [])
    (hus : u ≠ str "spoiler") :
    parse ('[' :: (w ++ (']' :: '(' :: (u ++ [')']))))
      = (w, [.textUrl 0 w.length u]) := by
  have hne : ('[' :: (w ++ (']' :: '(' :: (u ++ [')'])))).isEmpty = false := rfl
  have hmem : ∀ x : Char, special x →
      x ∈ ('[' :: (w ++ (']' :: '(' :: (u ++ [')'])))) → (x = '[' ∨ x = ']' ∨ x = '(' ∨ x = ')') := by
    intro x hx hm
    simp only [List.mem_cons, List.mem_append, List.mem_singleton] at hm
    rcases hm with h | h | h | h | h | h | h
    · exact Or.inl h
    · exact absurd h (not_mem_of_all_safe w hw x hx)
    · exact Or.inr (Or.inl h)
    · exact Or.inr (Or.inr (Or.inl h))
    · exact absurd h (not_mem_of_all_safe u hu x hx)
    · exact Or.inr (Or.inr (Or.inr h))
    · exact absurd h (List.not_mem_nil x)
  have hbq : blockquoteParser ('[' :: (w ++ (']' :: '(' :: (u ++ [')']))))
      = '[' :: (w ++ (']' :: '(' :: (u ++ [')']))) := by
    refine blockquoteParser_id _ (fun hm => ?_) ?_
    · rcases hmem '\n' (by decide) hm with h | h | h | h <;> exact absurd h (by decide)
    · rw [show str ">" = ['>'] from rfl]
      simp [List.isPrefixOf]
  have hcf : codeFindAll ('[' :: (w ++ (']' :: '(' :: (u ++ [')'])))) = [] := by
    refine codeFindAll_nil _ fun hm => ?_
    rcases hmem '<' (by decide) hm with h | h | h | h <;> exact absurd h (by decide)
  have hemoji : (str "emoji/").isPrefixOf u = false := by
    cases hp : (str "emoji/").isPrefixOf u with
    | false => rfl
    | true =>
      exfalso
      obtain ⟨t2, rfl⟩ := (List.isPrefixOf_iff_prefix.mp hp)
      exact not_mem_of_all_safe _ hu '/' (by decide)
        (List.mem_append.mpr (Or.inl (by decide)))
  simp only [parse, hne, Bool.false_eq_true, if_false]
  rw [hbq, hcf]
  simp only [shieldAux]
  rw [tokenize_link w u hw hwne hu hune]
  simp only [restoreAll, List.foldl_nil]
  rw [parseTags_link w u hw hu]
  simp [normalizeEntities, normOne, hus, hemoji]

theorem unparse_two (e : Entity) (S E w : Str)
    (hw : w.all safeUrlChar = true) (hne : w ≠ [])
    (htags : tagsFor e = [(strUtf16 S, 0), (strUtf16 E, w.length)])
    (hSlt : ∀ c ∈ S, c.toNat < 55296) (hElt : ∀ c ∈ E, c.toNat < 55296) :
    unparse w [e] = S ++ (w ++ E) := by
  have hwe : w.isEmpty = false := by cases w with | nil => exact absurd rfl hne | cons a l => rfl
  have hw16 : strUtf16 w = w.map Char.toNat := by
    refine strUtf16_small w fun c hc => ?_
    have := toNat_lt_of_safe c (by rw [List.all_eq_true] at hw; exact hw c hc)
    omega
  have hS16 : strUtf16 S = S.map Char.toNat := by
    refine strUtf16_small S fun c hc => ?_
    have := hSlt c hc
    omega
  have hE16 : strUtf16 E = E.map Char.toNat := by
    refine strUtf16_small E fun c hc => ?_
    have := hElt c hc
    omega
  have hwl : 1 ≤ w.length := by cases w with | nil => exact absurd rfl hne | cons a l => simp
  rw [unparse]
  rw [if_neg (by rw [hwe]; simp)]
  simp only [List.foldl_cons, List.foldl_nil, List.nil_append, htags]
  rw [show sortTagsDesc [(strUtf16 S, 0), (strUtf16 E, w.length)]
      = [(strUtf16 E, w.length), (strUtf16 S, 0)] by
    simp only [sortTagsDesc, List.foldr_cons, List.foldr_nil, sortInsert]
    rw [if_neg (show ¬ (0 ≥ w.length) by omega)]]
  simp only [List.foldl_cons, List.foldl_nil]
  rw [show pyInsert (strUtf16 w) w.length (strUtf16 E)
      = strUtf16 w ++ strUtf16 E by
    rw [pyInsert, List.take_of_length_le (by rw [hw16]; simp),
        List.drop_of_length_le (by rw [hw16]; simp), List.append_nil]]
  rw [show pyInsert (strUtf16 w ++ strUtf16 E) 0 (strUtf16 S)
      = strUtf16 S ++ (strUtf16 w ++ strUtf16 E) by
    rw [pyInsert, List.take_zero, List.drop_zero, List.nil_append]]
  rw [hw16, hS16, hE16, ← List.map_append, ← List.map_append,
      removeSurrogates_small _ (by
        intro v hv
        simp only [List.mem_map, List.mem_append] at hv
        obtain ⟨c, hc, rfl⟩ := hv
        rcases hc with hc | hc | hc
        · exact hSlt c hc
        · exact toNat_lt_of_safe c (by rw [List.all_eq_true] at hw; exact hw c hc)
        · exact hElt c hc),
      List.map_map]
  have hco : (Char.ofNat ∘ Char.toNat) = id := funext fun c => Char.ofNat_toNat c
  rw [hco, List.map_id]

theorem rt_link (w u : Str) (hw : safeWord w = true) (hu : safeUrl u = true)
    (hus : u ≠ str "spoiler") :
    unparse (parse ('[' :: (w ++ (']' :: '(' :: (u ++ [')']))))).1
        (parse ('[' :: (w ++ (']' :: '(' :: (u ++ [')']))))).2
      = '[' :: (w ++ (']' :: '(' :: (u ++ [')']))) := by
  obtain ⟨hwne, hwsafe⟩ := all_safeUrl_of_safeWord w hw
  obtain ⟨hune, husafe⟩ := all_safeUrl_of_safeUrl u hu
  rw [parse_link w u hwsafe hwne husafe hune hus]
  have := unparse_two (.textUrl 0 w.length u) (str "[") (str "](" ++ (u ++ str ")"))
    w hwsafe hwne (by simp [tagsFor, str, List.append_assoc]) (by decide)
    (by
      intro c hc
      simp only [List.mem_append] at hc
      rcases hc with hc | hc | hc
      · rw [show str "](" = [']', '('] from rfl] at hc
        rcases List.mem_cons.mp hc with h | h
        · subst h; decide
        · rw [List.mem_singleton] at h; subst h; decide
      · exact toNat_lt_of_safe c (by rw [List.all_eq_true] at husafe; exact husafe c hc)
      · rw [show str ")" = [')'] from rfl, List.mem_singleton] at hc
        subst hc; decide)
  exact this

theorem normOne_idem (e : Entity) : normOne (normOne e) = normOne e := by
  cases e <;> try rfl
  case textUrl off len url =>
    by_cases h1 : url = str "spoiler"
    · simp [normOne, h1]
    · by_cases h2 : (str "emoji/").isPrefixOf url
      · cases h3 : pyInt ((pySplit url '/')[1]?.getD []) with
        | none => simp [normOne, h1, h2, h3]
        | some n => simp [normOne, h1, h2, h3]
      · simp [normOne, h1, h2]

theorem normOne_eq_spec (e : Entity) : normOne e = specNormalizeOne e := by
  cases e <;> try rfl
  case textUrl off len url =>
    by_cases h1 : url = str "spoiler"
    · simp [normOne, specNormalizeOne, h1]
    · by_cases h2 : (str "emoji/").isPrefixOf url
      · obtain ⟨rest, rfl⟩ : ∃ rest, url = str "emoji/" ++ rest := by
          have := (List.isPrefixOf_iff_prefix).mp h2
          exact this.imp fun rest hr => hr.symm
        have hsplit : (pySplit (str "emoji/" ++ rest) '/')[1]?.getD []
            = rest.takeWhile (· ≠ '/') := by
          obtain ⟨a, l, hs⟩ : ∃ a l, pySplit rest '/' = a :: l := by
            cases hs : pySplit rest '/' with
            | nil => exact absurd hs (pySplit_ne_nil rest '/')
            | cons a l => exact ⟨a, l, rfl⟩
          have hh := pySplit_head rest '/'
          rw [hs] at hh
          simp only [List.getD_cons_zero] at hh
          simp [str, pySplit, hs, hh]
        have hdrop : List.drop 6 (str "emoji/" ++ rest) = rest := by
          have h6 : (str "emoji/").length = 6 := rfl
          rw [← h6, List.drop_left]
        simp [normOne, specNormalizeOne, h1, h2, hsplit, hdrop]
      · simp [normOne, specNormalizeOne, h1, h2]

/- ### Claims -/

/-- C2: blockquote grouping, evaluated on both inputs of the claim.
`parse ">a\n>b\nc"` does yield plain text `"a\nb\nc"` with one Blockquote
entity over `"a\nb"`, collapsed false.  `parse "**>x\n**>y"`, however, yields
a Bold entity and no Blockquote entity at all: `blockquote_parser` guards
each line with `line.startswith(">")`, which is false for a line starting
with `"**>"`, so the expandable branch of the source is unreachable and the
`**` pairs are tokenized as bold delimiters instead. -/
theorem c2_blockquote_eval :
    parse (str ">a\n>b\nc") = (str "a\nb\nc", [.blockquote 0 3 false]) ∧
    parse (str "**>x\n**>y") = (str ">x\n>y", [.bold 0 3]) := by
  constructor
  · decide
  · decide

/-- C3 counterexample: on plain text `"ab"` with Bold over [0,1) and Italic
over [1,2), `unparse` does not return `"**a**__b__"`. -/
theorem c3_counterexample :
    unparse (str "ab") [.bold 0 1, .italic 1 1] ≠ str "**a**__b__" := by decide

/-- C3 amended: that call returns `"**a__**b__"`: the Bold end token and the
Italic start token share offset 1, the stable descending sort keeps them in
build order (Bold's end first), and each splice at an offset pushes the
previously inserted token to the right, so the later-built Italic start lands
before the Bold end. -/
theorem c3_amended :
    unparse (str "ab") [.bold 0 1, .italic 1 1] = str "**a__**b__" := by decide

/-- C4 counterexample: tokenizing `` "`[x](u)`" `` leaves the link construct
untouched inside the fixed-width region — the result is
`"<code>[x](u)</code>"` and contains no `<a href` markup anywhere, refuting
that links are never suppressed by the fixed-width state. -/
theorem c4_counterexample :
    (tokenizeText (str "`[x](u)`")).text = str "<code>[x](u)</code>" ∧
    findSub ((tokenizeText (str "`[x](u)`")).text) (str "<a href") = none := by
  constructor
  · decide
  · decide

/-- C4 amended: a link match scanned while `is_fixed_width` is set is skipped
exactly like the non-code delimiters (the suppression check runs before the
link branch), leaving the whole scan state unchanged. -/
theorem c4_amended (s : TokState) (pos : Nat) (label url : Str)
    (h : s.fixedWidth = true) : tokenStep s (pos, .tokLink label url) = s := by
  cases s with
  | mk delims fw text =>
    simp only at h
    simp [tokenStep, isCodeOrPre, h]

theorem c4_amended_witness :
    tokenStep ⟨[], true, str "x"⟩ (0, .tokLink (str "a") (str "b")) = ⟨[], true, str "x"⟩ :=
  c4_amended ⟨[], true, str "x"⟩ 0 (str "a") (str "b") rfl

/-- C5: fixed-width shielding. While `is_fixed_width` is set, a match of any
non-code/pre delimiter leaves the scan state unchanged (the token is passed
through literally), so no entity can arise from it; and concretely
`` parse "`**not bold**`" `` yields exactly one Code entity over the whole
inner text `"**not bold**"` and no Bold entity. -/
theorem c5_fixed_width_shielding :
    (∀ (s : TokState) (pos : Nat) (d : Delim), d ≠ .dCode → d ≠ .dPre →
        s.fixedWidth = true → tokenStep s (pos, .tokDelim d) = s) ∧
    parse (str "`**not bold**`") = (str "**not bold**", [.code 0 12]) := by
  constructor
  · intro s pos d h1 h2 hfw
    have hcp : isCodeOrPre (.tokDelim d) = false := by
      simp [isCodeOrPre, h1, h2]
    cases s with
    | mk delims fw text =>
      simp only at hfw
      simp [tokenStep, hcp, hfw]
  · decide

theorem c5_fixed_width_shielding_witness :
    tokenStep ⟨[Delim.dCode], true, str "`**x"⟩ (1, .tokDelim .dBold)
      = ⟨[Delim.dCode], true, str "`**x"⟩ ∧
    parse (str "`**not bold**`") = (str "**not bold**", [.code 0 12]) :=
  ⟨c5_fixed_width_shielding.1 ⟨[Delim.dCode], true, str "`**x"⟩ 1 .dBold
      (by decide) (by decide) rfl,
   c5_fixed_width_shielding.2⟩

/-- C6 counterexample: the target `"emoji/12/34"` starts with `emoji/` but
its remainder `"12/34"` does not parse as an integer, yet normalization does
not leave the entity unchanged — it yields a CustomEmoji with document id 12
(`int(url.split("/")[1])` looks only at the text between the first and
second slash). -/
theorem c6_counterexample :
    pyInt (str "12/34") = none ∧
    (str "emoji/").isPrefixOf (str "emoji/12/34") = true ∧
    normalizeEntities [.textUrl 0 1 (str "emoji/12/34")] = [.customEmoji 0 1 12] ∧
    normalizeEntities [.textUrl 0 1 (str "emoji/12/34")]
      ≠ [Entity.textUrl 0 1 (str "emoji/12/34")] := by
  refine ⟨by decide, by decide, by decide, by decide⟩

/-- C6 amended: normalization is pointwise and total: a TextUrl whose target
is the literal `spoiler` becomes a Spoiler at the same offset/length; one
whose target starts with `emoji/` becomes a CustomEmoji whose id is the text
between the first and second `/` of the target parsed as a Python integer,
and stays an unchanged TextUrl when that parse fails; every other entity is
untouched and no error is ever raised. -/
theorem c6_amended (es : List Entity) :
    normalizeEntities es = es.map specNormalizeOne := by
  unfold normalizeEntities
  exact List.map_congr_left fun e _ => normOne_eq_spec e

/-- C7: the spoiler/custom-emoji normalization pass is idempotent. -/
theorem c7_normalize_idempotent (es : List Entity) :
    normalizeEntities (normalizeEntities es) = normalizeEntities es := by
  unfold normalizeEntities
  rw [List.map_map]
  exact List.map_congr_left fun e _ => normOne_idem e

/-- C8 counterexample: the line `">  a"` has its prefix `">"` and ALL
following whitespace stripped — the emitted content is `"a"`, not the
claimed `" a"` (prefix plus at most one leading space removed). -/
theorem c8_counterexample :
    blockquoteParser (str ">  a") = str "<blockquote>a</blockquote>" ∧
    blockquoteParser (str ">  a") ≠ str "<blockquote> a</blockquote>" := by
  refine ⟨by decide, by decide⟩

/-- C8 amended: for a quote-prefixed line (one starting with `">"` — lines
starting `"**>"` never reach the quote branch), exactly the `">"` prefix is
removed and the remainder is stripped of all its leading and trailing
whitespace, Python `str.strip()`; interior characters are preserved. -/
theorem c8_amended (w : Str) (h : '\n' ∉ w) :
    blockquoteParser ('>' :: w)
      = str "<blockquote>" ++ pyStrip w ++ str "</blockquote>" := by
  have hline : '\n' ∉ ('>' :: w) := by
    intro hm
    rcases List.mem_cons.mp hm with he | hm
    · exact absurd he.symm (by decide)
    · exact h hm
  have hsplit := pySplit_not_mem ('>' :: w) '\n' hline
  have hpb : (str ">").isPrefixOf ('>' :: w) = true := by
    simp [str, List.isPrefixOf]
  have hpe : (str "**>").isPrefixOf ('>' :: w) = false := by
    simp [str, List.isPrefixOf]
  simp [blockquoteParser, hsplit, blockquoteStep, hpb, hpe, appendLast,
        intercalate_singleton, openingTag, closingTag, str, List.append_assoc]

theorem c8_amended_witness :
    blockquoteParser ('>' :: str "  a")
      = str "<blockquote>" ++ pyStrip (str "  a") ++ str "</blockquote>" :=
  c8_amended (str "  a") (by decide)

/-- C9: unparse of empty plain text returns the empty string whatever the
entity list is. -/
theorem c9_unparse_empty (es : List Entity) : unparse (str "") es = str "" := rfl

/-- C10: the splice step of unparse is total on out-of-range offsets — a
token whose insertion offset is at or past the current text length is
appended at the end (Python slicing saturates) — and unparse of an entity
whose offsets lie far outside the text still returns a plain string with the
tokens appended; the embedding is a pure function of its inputs, so the
entity list is never mutated. -/
theorem c10_out_of_range :
    (∀ (t : List Nat) (off : Nat) (tag : List Nat),
        t.length ≤ off → pyInsert t off tag = t ++ tag) ∧
    unparse (str "ab") [.bold 100 5] = str "ab****" := by
  constructor
  · intro t off tag h
    unfold pyInsert
    rw [List.take_of_length_le h, List.drop_of_length_le h, List.append_nil]
  · decide

/-- C1 counterexample: the pre-block text ```` "```py\nx\n```" ```` is a
single balanced, non-overlapping construct with no blockquote, yet
`unparse (parse t)` returns ```` "```py\n\nx\n\n```" ````, not `t`: parsing
keeps the newlines around the fenced body in the plain text while unparse
re-adds a newline after ```` ```lang ```` and before the closing fence, so
the round trip gains two newlines. -/
theorem c1_counterexample :
    unparse (parse (str "```py\nx\n```")).1 (parse (str "```py\nx\n```")).2
      = str "```py\n\nx\n\n```" ∧
    unparse (parse (str "```py\nx\n```")).1 (parse (str "```py\nx\n```")).2
      ≠ str "```py\nx\n```" := by
  refine ⟨by decide, by decide⟩

/-- C1 amended: round-trip identity does hold for markup text consisting of
a single balanced inline construct — bold, italic, underline, strike,
spoiler or inline code around a nonempty alphanumeric word, or a link
`[word](target)` whose nonempty target uses alphanumerics, `:` or `.` and is
not the `spoiler` sentinel.  Pre fences (which gain newlines), blockquotes
(whose prefix whitespace is normalized) and sentinel link targets (rewritten
to other entities) are excluded. -/
theorem c1_roundtrip_amended (w u : Str) (hw : safeWord w = true)
    (hu : safeUrl u = true) (hus : u ≠ str "spoiler") :
    unparse (parse (str "**" ++ (w ++ str "**"))).1
        (parse (str "**" ++ (w ++ str "**"))).2 = str "**" ++ (w ++ str "**") ∧
    unparse (parse (str "__" ++ (w ++ str "__"))).1
        (parse (str "__" ++ (w ++ str "__"))).2 = str "__" ++ (w ++ str "__") ∧
    unparse (parse (str "--" ++ (w ++ str "--"))).1
        (parse (str "--" ++ (w ++ str "--"))).2 = str "--" ++ (w ++ str "--") ∧
    unparse (parse (str "~~" ++ (w ++ str "~~"))).1
        (parse (str "~~" ++ (w ++ str "~~"))).2 = str "~~" ++ (w ++ str "~~") ∧
    unparse (parse (str "||" ++ (w ++ str "||"))).1
        (parse (str "||" ++ (w ++ str "||"))).2 = str "||" ++ (w ++ str "||") ∧
    unparse (parse (str "`" ++ (w ++ str "`"))).1
        (parse (str "`" ++ (w ++ str "`"))).2 = str "`" ++ (w ++ str "`") ∧
    unparse (parse ('[' :: (w ++ (']' :: '(' :: (u ++ [')']))))).1
        (parse ('[' :: (w ++ (']' :: '(' :: (u ++ [')']))))).2
      = '[' :: (w ++ (']' :: '(' :: (u ++ [')']))) :=
  ⟨rt_bold w hw, rt_italic w hw, rt_underline w hw, rt_strike w hw,
   rt_spoiler w hw, rt_code w hw, rt_link w u hw hu hus⟩

theorem c1_roundtrip_amended_witness :
    unparse (parse (str "**" ++ (str "hi" ++ str "**"))).1
        (parse (str "**" ++ (str "hi" ++ str "**"))).2
      = str "**" ++ (str "hi" ++ str "**") ∧
    unparse (parse ('[' :: (str "hi" ++ (']' :: '(' :: (str "t.co" ++ [')']))))).1
        (parse ('[' :: (str "hi" ++ (']' :: '(' :: (str "t.co" ++ [')']))))).2
      = '[' :: (str "hi" ++ (']' :: '(' :: (str "t.co" ++ [')']))) :=
  ⟨(c1_roundtrip_amended (str "hi") (str "t.co") (by decide) (by decide) (by decide)).1,
   (c1_roundtrip_amended (str "hi") (str "t.co") (by decide) (by decide)
      (by decide)).2.2.2.2.2.2⟩

theorem c10_out_of_range_witness :
    pyInsert (strUtf16 (str "ab")) 5 (strUtf16 (str "**"))
      = strUtf16 (str "ab") ++ strUtf16 (str "**") :=
  c10_out_of_range.1 (strUtf16 (str "ab")) 5 (strUtf16 (str "**")) (by decide)

end MarkdownV3
